import Mathlib

/-!
The hybrid inline/heap `vector` and its `random_access_iter`.

A shallow embedding of `src/inc/vector.hpp` and `src/inc/random_access_iter.hpp`.

* Storage is explicit.  Every array object (the `_m_reserve_arr` member of a vector, or a block
  obtained from `new __Type[n]`) is an entry of a `Mem`; a `__Type*` is a `Ptr`: the array
  object it points into and an element offset.  An entry that has been released stays in the
  table as `none`, so a dangling pointer never becomes valid again.
* A cell of an array is an `Option`: `none` is an indeterminate (never written) value.
* An operation returns `none` exactly where the C++ has undefined behaviour in this model: an
  access outside an array object, an access to released storage, reading an indeterminate value,
  or (in the two loops) running out of fuel.
* `size_t` values are natural numbers.  `_m_capacity *= 2` cannot wrap: the doubled value is the
  length of an array that `new` has to provide, and an array of `2^63` or more elements does not
  exist on a machine whose `size_t` has 64 bits.  `new` itself never fails here.
* The members of a vector are the fields of a `vector` record that is passed in and returned
  (state passing).  `ReserveSize` is the template parameter `__ReserveSize`.
* Inside the class template the type `vector<__Type>` is `vector<__Type, 1024>`, the vector of
  the default reserve size, whatever the reserve size of the class.  So the two user-provided
  constructors `vector(const vector<__Type>&)` and `vector(vector<__Type>&&)` are the copy and
  move constructor only of `vector<__Type, 1024>`; a vector of another reserve size is copied,
  also from an rvalue, by the implicitly-defined memberwise copy constructor.  `reverse()`
  builds and returns a `vector<__Type>` for every receiver.
-/

namespace SmallVector

/-! ## Storage -/

/-- A `__Type*`.  `base` names the array object, `off` is the element offset from its first
element.  No array object is ever named `0`. -/
structure Ptr where
  base : Nat
  off : Int
deriving DecidableEq, Repr

/-- The null pointer. -/
def nullptr : Ptr := ⟨0, 0⟩

/-- Pointer arithmetic `p + n` with `n : size_t`.  Forming a pointer never fails in the model;
only using it does. -/
def Ptr.add (p : Ptr) (n : Nat) : Ptr := ⟨p.base, p.off + (n : Int)⟩

/-- Pointer arithmetic `p - n` with `n : size_t`. -/
def Ptr.sub (p : Ptr) (n : Nat) : Ptr := ⟨p.base, p.off - (n : Int)⟩

/-- Built-in `<` on pointers: inside one array object it is the order of the offsets; across
array objects the language leaves the result unspecified and the order of the objects is used. -/
def Ptr.lt (p q : Ptr) : Bool :=
  if p.base = q.base then decide (p.off < q.off) else decide (p.base < q.base)

/-- The cells of one array object. -/
abbrev Block (α : Type) := List (Option α)

/-- All array objects created so far; object `k + 1` is entry `k`, `none` once released. -/
abbrev Mem (α : Type) := List (Option (Block α))

variable {α : Type}

/-- The live array object named `a`, if any. -/
def block (m : Mem α) (a : Nat) : Option (Block α) :=
  match a with
  | 0 => none
  | k + 1 => (m[k]?).join

/-- Replace the entry of array object `a`. -/
def setBlock (m : Mem α) (a : Nat) (b : Option (Block α)) : Mem α :=
  match a with
  | 0 => m
  | k + 1 => m.set k b

/-- Storage for a new array object of `n` cells with indeterminate values (`new __Type[n]`, or
the storage of an array member). -/
def new_arr (m : Mem α) (n : Nat) : Mem α × Ptr :=
  (m ++ [some (List.replicate n none)], ⟨m.length + 1, 0⟩)

/-- The expression `delete [] p`. -/
def delete_arr (m : Mem α) (p : Ptr) : Option (Mem α) :=
  if p = nullptr then some m
  else
    match block m p.base with
    | some _ => if p.off = 0 then some (setBlock m p.base none) else none
    | none => none

/-- Read `*p`. -/
def load (m : Mem α) (p : Ptr) : Option α :=
  if p.off < 0 then none
  else
    match block m p.base with
    | some b => (b[p.off.toNat]?).join
    | none => none

/-- Assign `*p = x`. -/
def store (m : Mem α) (p : Ptr) (x : α) : Option (Mem α) :=
  if p.off < 0 then none
  else
    match block m p.base with
    | some b =>
      if p.off.toNat < b.length then some (setBlock m p.base (some (b.set p.off.toNat (some x))))
      else none
    | none => none

/-- The `n` cells starting at `p`, indeterminate ones included. -/
def readCells (m : Mem α) (p : Ptr) (n : Nat) : Option (List (Option α)) :=
  if p.off < 0 then none
  else
    match block m p.base with
    | some b => if p.off.toNat + n ≤ b.length then some ((b.drop p.off.toNat).take n) else none
    | none => none

/-- Overwrite the cells starting at `p` with `cs`. -/
def writeCells (m : Mem α) (p : Ptr) (cs : List (Option α)) : Option (Mem α) :=
  if p.off < 0 then none
  else
    match block m p.base with
    | some b =>
      if p.off.toNat + cs.length ≤ b.length then
        some (setBlock m p.base
          (some (b.take p.off.toNat ++ cs ++ b.drop (p.off.toNat + cs.length))))
      else none
    | none => none

/-- The call `memmove(dst, src, sizeof(__Type) * n)`: the source cells are read first. -/
def memmove (m : Mem α) (dst src : Ptr) (n : Nat) : Option (Mem α) :=
  (readCells m src n).bind (writeCells m dst)

/-- The call `memcpy(dst, src, sizeof(__Type) * n)`: as `memmove`, and undefined when the two
ranges overlap. -/
def memcpy (m : Mem α) (dst src : Ptr) (n : Nat) : Option (Mem α) :=
  if dst.base = src.base ∧ dst.off < src.off + (n : Int) ∧ src.off < dst.off + (n : Int) then none
  else memmove m dst src n

/-! ## `random_access_iter`

The two postfix operators (which return a reference to a local copy) and the two operators that
take a second iterator (`_m_ptr + rhs._m_ptr` is ill-formed) are used nowhere and are left out.
-/

/-- The class `random_access_iter<__Type>`: its one member. -/
structure random_access_iter where
  _m_ptr : Ptr
deriving DecidableEq, Repr

namespace random_access_iter

/-- The helper `_ctor()`. -/
def _ctor : random_access_iter := ⟨nullptr⟩

/-- The helper `_ctor(__Type* item)`. -/
def _ctor_item (item : Ptr) : random_access_iter := ⟨item⟩

/-- The helper `_copy(rhs)`. -/
def _copy (_this rhs : random_access_iter) : random_access_iter := ⟨rhs._m_ptr⟩

/-- The helper `_add(amount)`. -/
def _add (this : random_access_iter) (amount : Nat) : random_access_iter :=
  ⟨this._m_ptr.add amount⟩

/-- The helper `_subtract(amount)`. -/
def _subtract (this : random_access_iter) (amount : Nat) : random_access_iter :=
  ⟨this._m_ptr.sub amount⟩

/-- The helper `_equal(rhs)`. -/
def _equal (this rhs : random_access_iter) : Bool := decide (this._m_ptr = rhs._m_ptr)

/-- The helper `_greater_than(rhs)`. -/
def _greater_than (this rhs : random_access_iter) : Bool := rhs._m_ptr.lt this._m_ptr

/-- The helper `_less_than(rhs)`. -/
def _less_than (this rhs : random_access_iter) : Bool := this._m_ptr.lt rhs._m_ptr

/-- The constructor `random_access_iter()`. -/
def default_ctor : random_access_iter := _ctor

/-- The constructor `random_access_iter(__Type* item)`. -/
def from_ptr (item : Ptr) : random_access_iter := _ctor_item item

/-- The constructor `random_access_iter(const random_access_iter& rhs)`. -/
def copy_ctor (rhs : random_access_iter) : random_access_iter := _copy _ctor rhs

/-- The member `operator+=(size_t)`: the receiver afterwards (it is what is returned). -/
def plus_assign (this : random_access_iter) (rhs : Nat) : random_access_iter := this._add rhs

/-- The member `operator-=(size_t)`. -/
def minus_assign (this : random_access_iter) (rhs : Nat) : random_access_iter :=
  this._subtract rhs

/-- The member `operator*()`, read. -/
def deref (m : Mem α) (this : random_access_iter) : Option α := load m this._m_ptr

/-- The member `operator[](index)`, read: `_m_ptr[index]`. -/
def subscript (m : Mem α) (this : random_access_iter) (index : Nat) : Option α :=
  load m (this._m_ptr.add index)

/-- The member `operator++()`. -/
def pre_inc (this : random_access_iter) : random_access_iter := this._add 1

/-- The member `operator--()`. -/
def pre_dec (this : random_access_iter) : random_access_iter := this._subtract 1

/-- The member `operator+(size_t)`. -/
def plus (this : random_access_iter) (size : Nat) : random_access_iter :=
  from_ptr (this._m_ptr.add size)

/-- The member `operator-(size_t)`. -/
def minus (this : random_access_iter) (size : Nat) : random_access_iter :=
  from_ptr (this._m_ptr.sub size)

/-- The member `operator==`. -/
def eq (this rhs : random_access_iter) : Bool := this._equal rhs

/-- The member `operator!=`. -/
def ne (this rhs : random_access_iter) : Bool := !this._equal rhs

/-- The member `operator>`. -/
def gt (this rhs : random_access_iter) : Bool := this._greater_than rhs

/-- The member `operator<`. -/
def lt (this rhs : random_access_iter) : Bool := this._less_than rhs

/-- The member `operator>=`. -/
def ge (this rhs : random_access_iter) : Bool := this._greater_than rhs || this._equal rhs

/-- The member `operator<=`. -/
def le (this rhs : random_access_iter) : Bool := this._less_than rhs || this._equal rhs

end random_access_iter

/-! ## `vector` -/

/-- The class `vector<__Type, __ReserveSize>`: its members.  `_m_reserve_arr` is the name of
the array object embedded in the vector; it also identifies the vector. -/
structure vector where
  _m_reserve_arr : Nat
  _m_overflow_arr : Ptr
  _m_capacity : Nat
  _m_size : Nat
deriving DecidableEq, Repr

namespace vector

/-- The array member `_m_reserve_arr` used as a pointer to its first element. -/
def reserve_ptr (this : vector) : Ptr := ⟨this._m_reserve_arr, 0⟩

/-- Storage for a new vector object: its array member is created with `ReserveSize`
indeterminate cells; the other members are indeterminate until `_ctor` runs. -/
def storage (ReserveSize : Nat) (m : Mem α) : Mem α × vector :=
  ((new_arr m ReserveSize).1,
   { _m_reserve_arr := (new_arr m ReserveSize).2.base, _m_overflow_arr := nullptr,
     _m_capacity := 0, _m_size := 0 })

/-- The helper `_ctor()`. -/
def _ctor (ReserveSize : Nat) (this : vector) : vector :=
  { this with _m_size := 0, _m_capacity := ReserveSize, _m_overflow_arr := this.reserve_ptr }

/-- The helper `_dtor()`. -/
def _dtor (m : Mem α) (this : vector) : Option (Mem α) :=
  if this._m_overflow_arr ≠ this.reserve_ptr then delete_arr m this._m_overflow_arr else some m

/-- The helper `_capacity()`. -/
def _capacity (this : vector) : Nat := this._m_capacity

/-- The helper `_size()`. -/
def _size (this : vector) : Nat := this._m_size

/-- The helper `_at_unsafe(index)`, read. -/
def _at_unsafe (m : Mem α) (this : vector) (index : Nat) : Option α :=
  load m (this._m_overflow_arr.add index)

/-- The helper `_at(index)`, read; it is what the public `at(index)` returns. -/
def _at (m : Mem α) (this : vector) (index : Nat) : Option α := _at_unsafe m this index

/-- An assignment through the reference `at(index)` or `operator[](index)` returns. -/
def assign_at (m : Mem α) (this : vector) (index : Nat) (value : α) : Option (Mem α) :=
  store m (this._m_overflow_arr.add index) value

/-- The helper `_resize_arr()`. -/
def _resize_arr (m : Mem α) (this : vector) : Option (Mem α × vector) :=
  let this1 := { this with _m_capacity := this._m_capacity * 2 }
  let a := new_arr m this1._m_capacity
  (memcpy a.1 a.2 this1._m_overflow_arr this1._m_size).bind fun m2 =>
  (if this1._m_overflow_arr ≠ this1.reserve_ptr then delete_arr m2 this1._m_overflow_arr
   else some m2).bind fun m3 =>
  some (m3, { this1 with _m_overflow_arr := a.2 })

/-- The helper `_push_back(value)`. -/
def _push_back (m : Mem α) (this : vector) (value : α) : Option (Mem α × vector) :=
  (if this._m_size + 1 = this._m_capacity then _resize_arr m this else some (m, this)).bind fun s =>
  (store s.1 (s.2._m_overflow_arr.add s.2._m_size) value).bind fun m2 =>
  some (m2, { s.2 with _m_size := s.2._m_size + 1 })

/-- The helper `_push_front(value)`. -/
def _push_front (m : Mem α) (this : vector) (value : α) : Option (Mem α × vector) :=
  (if this._m_size + 1 = this._m_capacity then _resize_arr m this else some (m, this)).bind fun s =>
  (memmove s.1 (s.2._m_overflow_arr.add 1) s.2._m_overflow_arr s.2._m_size).bind fun m2 =>
  (store m2 (s.2._m_overflow_arr.add 0) value).bind fun m3 =>
  some (m3, { s.2 with _m_size := s.2._m_size + 1 })

/-- The helper `_copy(rhs)`. -/
def _copy (ReserveSize : Nat) (m : Mem α) (this rhs : vector) : Option (Mem α × vector) :=
  let this1 := { this with _m_size := rhs._m_size, _m_capacity := rhs._m_capacity }
  (if this1._m_overflow_arr ≠ this1.reserve_ptr then delete_arr m this1._m_overflow_arr
   else some m).bind fun m1 =>
  let s : Mem α × vector :=
    if this1._m_size > ReserveSize then
      ((new_arr m1 this1._m_capacity).1,
       { this1 with _m_overflow_arr := (new_arr m1 this1._m_capacity).2 })
    else (m1, { this1 with _m_overflow_arr := this1.reserve_ptr })
  (memcpy s.1 s.2._m_overflow_arr rhs._m_overflow_arr s.2._m_size).bind fun m3 =>
  some (m3, s.2)

/-- The helper `_move(rhs)`: the memory, the receiver and `rhs` afterwards. -/
def _move (ReserveSize : Nat) (m : Mem α) (this rhs : vector) :
    Option (Mem α × vector × vector) :=
  let this1 := { this with _m_size := rhs._m_size, _m_capacity := rhs._m_capacity }
  (if this1._m_overflow_arr ≠ this1.reserve_ptr then delete_arr m this1._m_overflow_arr
   else some m).bind fun m1 =>
  if this1._m_size > ReserveSize then
    some (m1, { this1 with _m_overflow_arr := rhs._m_overflow_arr },
          { rhs with _m_overflow_arr := rhs.reserve_ptr })
  else
    let this2 := { this1 with _m_overflow_arr := this1.reserve_ptr }
    (memcpy m1 this2._m_overflow_arr rhs._m_overflow_arr this2._m_size).bind fun m2 =>
    some (m2, this2, rhs)

/-- The constructor `vector()`. -/
def default_ctor (ReserveSize : Nat) (m : Mem α) : Mem α × vector :=
  ((storage ReserveSize m).1, _ctor ReserveSize (storage ReserveSize m).2)

/-- The default argument of the template parameter `__ReserveSize`: the reserve size of the
type `vector<__Type>`. -/
def default_reserve_size : Nat := 1024

/-- The user-provided constructor `vector(const vector<__Type>& rhs) { _ctor(); _copy(rhs); }`.
Its operand is a `vector<__Type>` and its body reads the private members of the operand, so it
runs only in the class `vector<__Type>` itself: `ReserveSize` is the reserve size of that
class (1024 in the source). -/
def user_copy_ctor (ReserveSize : Nat) (m : Mem α) (rhs : vector) : Option (Mem α × vector) :=
  _copy ReserveSize (storage ReserveSize m).1 (_ctor ReserveSize (storage ReserveSize m).2) rhs

/-- The user-provided constructor `vector(vector<__Type>&& rhs) { _ctor(); _move(rhs); }`, the
move constructor of the class `vector<__Type>`; `ReserveSize` is the reserve size of that class
(1024 in the source).  The memory, the new vector and `rhs` afterwards. -/
def user_move_ctor (ReserveSize : Nat) (m : Mem α) (rhs : vector) :
    Option (Mem α × vector × vector) :=
  _move ReserveSize (storage ReserveSize m).1 (_ctor ReserveSize (storage ReserveSize m).2) rhs

/-- The implicitly-defined copy constructor: every member is copied.  The new vector has an
array member of its own holding a copy of the cells of the operand's array member (indeterminate
cells if that array no longer exists), and the same `_m_overflow_arr`, `_m_capacity` and
`_m_size` as the operand: its active storage is the active storage of the operand. -/
def implicit_copy_ctor (ReserveSize : Nat) (m : Mem α) (rhs : vector) : Mem α × vector :=
  (m ++ [some ((block m rhs._m_reserve_arr).getD (List.replicate ReserveSize none))],
   { rhs with _m_reserve_arr := m.length + 1 })

/-- Copy construction of a `vector<__Type, ReserveSize>` from a vector of the same type: the
user-provided constructor when the type is `vector<__Type>`, the implicitly-defined copy
constructor otherwise. -/
def copy_ctor (ReserveSize : Nat) (m : Mem α) (rhs : vector) : Option (Mem α × vector) :=
  if ReserveSize = default_reserve_size then user_copy_ctor ReserveSize m rhs
  else some (implicit_copy_ctor ReserveSize m rhs)

/-- Construction of a `vector<__Type, ReserveSize>` from an rvalue of the same type: the
user-provided move constructor when the type is `vector<__Type>`; otherwise the class has no
move constructor (it declares a destructor) and the implicitly-defined copy constructor runs,
which leaves `rhs` as it was.  The memory, the new vector and `rhs` afterwards. -/
def move_ctor (ReserveSize : Nat) (m : Mem α) (rhs : vector) :
    Option (Mem α × vector × vector) :=
  if ReserveSize = default_reserve_size then user_move_ctor ReserveSize m rhs
  else some ((implicit_copy_ctor ReserveSize m rhs).1, (implicit_copy_ctor ReserveSize m rhs).2,
    rhs)

/-- The destructor `~vector()`, followed by the end of the storage of the array member. -/
def destroy (m : Mem α) (this : vector) : Option (Mem α) :=
  (_dtor m this).bind fun m1 =>
  match block m1 this._m_reserve_arr with
  | some _ => some (setBlock m1 this._m_reserve_arr none)
  | none => none

/-- The member `push_back(value)`.  The argument is passed by value: in every caller modelled
here the reference it stands for points outside the receiver's storage. -/
def push_back (m : Mem α) (this : vector) (value : α) : Option (Mem α × vector) :=
  _push_back m this value

/-- The member `push_front(value)`. -/
def push_front (m : Mem α) (this : vector) (value : α) : Option (Mem α × vector) :=
  _push_front m this value

/-- The member `capacity()`. -/
def capacity (this : vector) : Nat := this._capacity

/-- The member `size()`. -/
def size (this : vector) : Nat := this._size

/-- The member `begin()`. -/
def begin (this : vector) : random_access_iter :=
  random_access_iter.from_ptr this._m_overflow_arr

/-- The member `end()`. -/
def end_ (this : vector) : random_access_iter :=
  random_access_iter.from_ptr (this._m_overflow_arr.add this._m_size)

/-- The member `rbegin()`. -/
def rbegin (this : vector) : random_access_iter := this.end_.minus 1

/-- The member `rend()`. -/
def rend (this : vector) : random_access_iter := this.begin.minus 1

/-- The loop of `_add_vector`, `for (const auto& item : rhs) this->push_back(item);`, from the
position `it` up to `last`.  `none` also when `fuel` runs out. -/
def _add_vector_loop (fuel : Nat) (m : Mem α) (this : vector) (it last : random_access_iter) :
    Option (Mem α × vector) :=
  match fuel with
  | 0 => none
  | fuel + 1 =>
    if it.ne last then
      (it.deref m).bind fun item =>
      (push_back m this item).bind fun s =>
      _add_vector_loop fuel s.1 s.2 it.pre_inc last
    else some (m, this)

/-- The helper `_add_vector(rhs)`. -/
def _add_vector (fuel : Nat) (m : Mem α) (this rhs : vector) : Option (Mem α × vector) :=
  _add_vector_loop fuel m this rhs.begin rhs.end_

/-- The member `operator+(rhs)`: the memory, the receiver afterwards, and the vector the
returned reference `*this` denotes.  The operand and the returned reference are of type
`vector<__Type>`, so the member is usable only in the class `vector<__Type>`. -/
def operator_plus (fuel : Nat) (m : Mem α) (this rhs : vector) :
    Option (Mem α × vector × vector) :=
  (_add_vector fuel m this rhs).bind fun s => some (s.1, s.2, s.2)

/-- The member `operator+=(rhs)`: the memory, the receiver afterwards, and the vector the
returned reference `*this` denotes.  The operand and the returned reference are of type
`vector<__Type>`, so the member is usable only in the class `vector<__Type>`. -/
def operator_plus_assign (fuel : Nat) (m : Mem α) (this rhs : vector) :
    Option (Mem α × vector × vector) :=
  (_add_vector fuel m this rhs).bind fun s => some (s.1, s.2, s.2)

/-- The loop of `_create_reverse_vector`,
`for (iter = rbegin(); iter != rend(); --iter) temp.push_back(*iter);`, from the position `iter`.
`none` also when `fuel` runs out. -/
def _reverse_loop (fuel : Nat) (m : Mem α) (this : vector) (iter : random_access_iter)
    (temp : vector) : Option (Mem α × vector) :=
  match fuel with
  | 0 => none
  | fuel + 1 =>
    if iter.ne this.rend then
      (iter.deref m).bind fun item =>
      (push_back m temp item).bind fun s =>
      _reverse_loop fuel s.1 this iter.pre_dec s.2
    else some (m, temp)

/-- The helper `_create_reverse_vector()`: `temp` is built, the returned vector is move
constructed from it, and `temp` is destroyed.  `temp` and the returned vector are of type
`vector<__Type>` whatever the receiver is; `ReserveSize` is the reserve size of that type (1024
in the source). -/
def _create_reverse_vector (ReserveSize fuel : Nat) (m : Mem α) (this : vector) :
    Option (Mem α × vector) :=
  let t := default_ctor ReserveSize m
  (_reverse_loop fuel t.1 this this.rbegin t.2).bind fun s =>
  (user_move_ctor ReserveSize s.1 s.2).bind fun r =>
  (destroy r.1 r.2.2).bind fun m3 =>
  some (m3, r.2.1)

/-- The member `reverse()`: `return std::move(_create_reverse_vector());` move constructs the
result from the temporary, which is then destroyed.  The result is a `vector<__Type>`;
`ReserveSize` is the reserve size of that type (1024 in the source). -/
def reverse (ReserveSize fuel : Nat) (m : Mem α) (this : vector) : Option (Mem α × vector) :=
  (_create_reverse_vector ReserveSize fuel m this).bind fun s =>
  (user_move_ctor ReserveSize s.1 s.2).bind fun r =>
  (destroy r.1 r.2.2).bind fun m3 =>
  some (m3, r.2.1)

end vector

/-! ## Runs of operations -/

/-- Append the values of `xs` in turn with `push_back`. -/
def push_back_all (m : Mem α) (v : vector) (xs : List α) : Option (Mem α × vector) :=
  match xs with
  | [] => some (m, v)
  | x :: rest => (v.push_back m x).bind fun s => push_back_all s.1 s.2 rest

/-- Prepend the values of `xs` in turn with `push_front`. -/
def push_front_all (m : Mem α) (v : vector) (xs : List α) : Option (Mem α × vector) :=
  match xs with
  | [] => some (m, v)
  | x :: rest => (v.push_front m x).bind fun s => push_front_all s.1 s.2 rest

/-- One mutation of a vector through its public interface: `push_back(value)`,
`push_front(value)`, or an assignment through `at(index)` / `operator[](index)`. -/
inductive Op (α : Type) where
  | push_back (value : α)
  | push_front (value : α)
  | assign (index : Nat) (value : α)
deriving DecidableEq, Repr

/-- Whether the mutation is one of the two pushes. -/
def Op.is_push (o : Op α) : Bool :=
  match o with
  | .push_back _ => true
  | .push_front _ => true
  | .assign _ _ => false

/-- Apply one mutation. -/
def Op.apply (m : Mem α) (v : vector) (o : Op α) : Option (Mem α × vector) :=
  match o with
  | .push_back value => v.push_back m value
  | .push_front value => v.push_front m value
  | .assign index value => (v.assign_at m index value).bind fun m1 => some (m1, v)

/-- Apply the mutations of `ops` in turn. -/
def run (m : Mem α) (v : vector) (ops : List (Op α)) : Option (Mem α × vector) :=
  match ops with
  | [] => some (m, v)
  | o :: rest => (o.apply m v).bind fun s => run s.1 s.2 rest


/-! ## Invariants -/

/-- Between `m` and `m1` no array object was created and none but `a` changed. -/
def Touches (m m1 : Mem α) (a : Nat) : Prop :=
  m1.length = m.length ∧ ∀ c, c ≠ a → block m1 c = block m c

/-- The vector `v` has contents `xs`: its active storage is a live array object whose first
`size()` cells hold the values of `xs`, in order. -/
structure Holds (m : Mem α) (v : vector) (xs : List α) : Prop where
  size_eq : v._m_size = xs.length
  off_zero : v._m_overflow_arr.off = 0
  cells : ∃ blk, block m v._m_overflow_arr.base = some blk ∧ blk.take xs.length = xs.map some

/-- The storage invariant of a vector: its array member is live with `ReserveSize` cells, its
active storage is a live array object of exactly `capacity()` cells, and `size() < capacity()`. -/
structure WF (ReserveSize : Nat) (m : Mem α) (v : vector) : Prop where
  off_zero : v._m_overflow_arr.off = 0
  reserve_live : ∃ r, block m v._m_reserve_arr = some r ∧ r.length = ReserveSize
  active_live : ∃ blk, block m v._m_overflow_arr.base = some blk ∧ blk.length = v._m_capacity
  room : v._m_size < v._m_capacity

/-- What an operation on one vector may do to the memory: array objects are only added, the
array member stays where it is, the active storage stays or moves to a new array object, and
every array object that existed before, the old active storage apart, is left as it was. -/
structure Step (m : Mem α) (v : vector) (m1 : Mem α) (v1 : vector) : Prop where
  len_le : m.length ≤ m1.length
  reserve_eq : v1._m_reserve_arr = v._m_reserve_arr
  active : v1._m_overflow_arr.base = v._m_overflow_arr.base ∨ m.length < v1._m_overflow_arr.base
  frame : ∀ c, c ≤ m.length → c ≠ v._m_overflow_arr.base → block m1 c = block m c

/-- The vectors reachable from default construction by `push_back`, `push_front`, concatenation
(`+=` and `+`, with any operand), copy construction and move construction (the new vector and
the moved-from source).  Each step may run in any memory in which it is defined. -/
inductive Reachable (α : Type) (ReserveSize : Nat) : vector → Prop where
  | default_ctor (m : Mem α) : Reachable α ReserveSize (vector.default_ctor ReserveSize m).2
  | push_back {v : vector} (m : Mem α) (x : α) (m1 : Mem α) (v1 : vector) :
      Reachable α ReserveSize v → v.push_back m x = some (m1, v1) → Reachable α ReserveSize v1
  | push_front {v : vector} (m : Mem α) (x : α) (m1 : Mem α) (v1 : vector) :
      Reachable α ReserveSize v → v.push_front m x = some (m1, v1) → Reachable α ReserveSize v1
  | plus_assign {a : vector} (b : vector) (fuel : Nat) (m m1 : Mem α) (a1 r : vector) :
      Reachable α ReserveSize a → a.operator_plus_assign fuel m b = some (m1, a1, r) →
      Reachable α ReserveSize a1
  | plus {a : vector} (b : vector) (fuel : Nat) (m m1 : Mem α) (a1 r : vector) :
      Reachable α ReserveSize a → a.operator_plus fuel m b = some (m1, a1, r) →
      Reachable α ReserveSize a1
  | copy_ctor {a : vector} (m m1 : Mem α) (b : vector) :
      Reachable α ReserveSize a → vector.copy_ctor ReserveSize m a = some (m1, b) →
      Reachable α ReserveSize b
  | move_ctor {a : vector} (m m1 : Mem α) (b a1 : vector) :
      Reachable α ReserveSize a → vector.move_ctor ReserveSize m a = some (m1, b, a1) →
      Reachable α ReserveSize b
  | moved_from {a : vector} (m m1 : Mem α) (b a1 : vector) :
      Reachable α ReserveSize a → vector.move_ctor ReserveSize m a = some (m1, b, a1) →
      Reachable α ReserveSize a1

/-- The capacity of a vector grown by doubling from `ReserveSize`: either it is `ReserveSize`
and the active storage is the array member, or it is `ReserveSize * 2 ^ (j + 1)` for a `j`
with `ReserveSize * 2 ^ j ≤ size()` and the active storage is not the array member. -/
def Doubling (ReserveSize : Nat) (v : vector) : Prop :=
  (v._m_capacity = ReserveSize ∧ v._m_overflow_arr = v.reserve_ptr) ∨
  ∃ j, v._m_capacity = ReserveSize * 2 ^ (j + 1) ∧ ReserveSize * 2 ^ j ≤ v._m_size ∧
    v._m_overflow_arr ≠ v.reserve_ptr


/-! ## Storage lemmas -/

theorem block_pos_le {m : Mem α} {a : Nat} {b : Block α} (h : block m a = some b) :
    0 < a ∧ a ≤ m.length := by
  cases a with
  | zero => simp [block] at h
  | succ k =>
    refine ⟨Nat.succ_pos k, ?_⟩
    by_contra hk
    have : m.length ≤ k := by omega
    simp [block, List.getElem?_eq_none this] at h

theorem length_setBlock (m : Mem α) (a : Nat) (b : Option (Block α)) :
    (setBlock m a b).length = m.length := by
  cases a <;> simp [setBlock]

theorem block_setBlock_ne (m : Mem α) {a c : Nat} (b : Option (Block α)) (h : c ≠ a) :
    block (setBlock m a b) c = block m c := by
  cases a with
  | zero => rfl
  | succ k =>
    cases c with
    | zero => rfl
    | succ j =>
      have : k ≠ j := by omega
      simp [block, setBlock, List.getElem?_set_ne this]

theorem block_setBlock_self (m : Mem α) {a : Nat} (b : Option (Block α)) (h0 : 0 < a)
    (h1 : a ≤ m.length) : block (setBlock m a b) a = b := by
  cases a with
  | zero => omega
  | succ k =>
    have : k < m.length := by omega
    simp [block, setBlock, List.getElem?_set_self, this]

theorem block_setBlock_live (m : Mem α) {a : Nat} {old : Block α} (b : Option (Block α))
    (h : block m a = some old) : block (setBlock m a b) a = b :=
  block_setBlock_self m b (block_pos_le h).1 (block_pos_le h).2

theorem length_new_arr (m : Mem α) (n : Nat) : (new_arr m n).1.length = m.length + 1 := by
  simp [new_arr]

theorem new_arr_ptr (m : Mem α) (n : Nat) : (new_arr m n).2 = ⟨m.length + 1, 0⟩ := rfl

theorem block_new_arr_self (m : Mem α) (n : Nat) :
    block (new_arr m n).1 (m.length + 1) = some (List.replicate n none) := by
  simp [block, new_arr]

theorem block_new_arr_ne (m : Mem α) (n : Nat) {c : Nat} (h : c ≠ m.length + 1) :
    block (new_arr m n).1 c = block m c := by
  cases c with
  | zero => rfl
  | succ j =>
    have hj : j ≠ m.length := by omega
    rcases Nat.lt_or_ge j m.length with hlt | hge
    · simp [block, new_arr, List.getElem?_append_left hlt]
    · have h1 : m.length < j := by omega
      have h2 : (m ++ [some (List.replicate n none)]).length ≤ j := by simp; omega
      simp [block, new_arr, List.getElem?_eq_none h2, List.getElem?_eq_none hge]

/-! ### What one primitive changes -/

theorem touches_setBlock (m : Mem α) (a : Nat) (b : Option (Block α)) :
    Touches m (setBlock m a b) a :=
  ⟨length_setBlock m a b, fun _ hc => block_setBlock_ne m b hc⟩

theorem touches_refl (m : Mem α) (a : Nat) : Touches m m a := ⟨rfl, fun _ _ => rfl⟩

theorem store_touches {m m1 : Mem α} {p : Ptr} {x : α} (h : store m p x = some m1) :
    Touches m m1 p.base := by
  unfold store at h
  split at h
  · cases h
  · split at h
    · split at h
      · cases h; exact touches_setBlock _ _ _
      · cases h
    · cases h

theorem writeCells_touches {m m1 : Mem α} {p : Ptr} {cs : List (Option α)}
    (h : writeCells m p cs = some m1) : Touches m m1 p.base := by
  unfold writeCells at h
  split at h
  · cases h
  · split at h
    · split at h
      · cases h; exact touches_setBlock _ _ _
      · cases h
    · cases h

theorem memmove_touches {m m1 : Mem α} {dst src : Ptr} {n : Nat}
    (h : memmove m dst src n = some m1) : Touches m m1 dst.base := by
  unfold memmove at h
  rcases Option.bind_eq_some.1 h with ⟨cs, _, hw⟩
  exact writeCells_touches hw

theorem memcpy_touches {m m1 : Mem α} {dst src : Ptr} {n : Nat}
    (h : memcpy m dst src n = some m1) : Touches m m1 dst.base := by
  unfold memcpy at h
  split at h
  · cases h
  · exact memmove_touches h

theorem delete_arr_touches {m m1 : Mem α} {p : Ptr} (h : delete_arr m p = some m1) :
    Touches m m1 p.base := by
  unfold delete_arr at h
  split at h
  · cases h; exact touches_refl _ _
  · split at h
    · split at h
      · cases h; exact touches_setBlock _ _ _
      · cases h
    · cases h

/-! ### When a primitive is defined, and its result -/

theorem load_at {m : Mem α} {p : Ptr} {blk : Block α} {i : Nat}
    (hb : block m p.base = some blk) (ho : p.off = (i : Int)) :
    load m p = (blk[i]?).join := by
  simp [load, hb, ho]

theorem store_at {m : Mem α} {p : Ptr} {blk : Block α} {i : Nat}
    (hb : block m p.base = some blk) (ho : p.off = (i : Int)) (hi : i < blk.length) (x : α) :
    store m p x = some (setBlock m p.base (some (blk.set i (some x)))) := by
  simp [store, hb, ho, hi]

theorem readCells_at {m : Mem α} {p : Ptr} {blk : Block α} {i n : Nat}
    (hb : block m p.base = some blk) (ho : p.off = (i : Int)) (hi : i + n ≤ blk.length) :
    readCells m p n = some ((blk.drop i).take n) := by
  simp [readCells, hb, ho, hi]

theorem writeCells_at {m : Mem α} {p : Ptr} {blk : Block α} {i : Nat} {cs : List (Option α)}
    (hb : block m p.base = some blk) (ho : p.off = (i : Int)) (hi : i + cs.length ≤ blk.length) :
    writeCells m p cs =
      some (setBlock m p.base (some (blk.take i ++ cs ++ blk.drop (i + cs.length)))) := by
  simp [writeCells, hb, ho, hi]

theorem memcpy_at {m : Mem α} {p q : Ptr} {d s : Block α} {n : Nat}
    (hne : p.base ≠ q.base) (hd : block m p.base = some d) (hs : block m q.base = some s)
    (hdo : p.off = 0) (hso : q.off = 0) (hnd : n ≤ d.length) (hns : n ≤ s.length) :
    memcpy m p q n = some (setBlock m p.base (some (s.take n ++ d.drop n))) := by
  have hr : readCells m q n = some ((s.drop 0).take n) :=
    readCells_at hs (by simpa using hso) (by omega)
  have hlen : (s.take n).length = n := by simp [hns]
  have hw : writeCells m p (s.take n) =
      some (setBlock m p.base (some (d.take 0 ++ s.take n ++ d.drop (0 + (s.take n).length)))) :=
    writeCells_at hd (by simpa using hdo) (by omega)
  simp only [memcpy, hne, false_and, if_false, memmove, hr, List.drop_zero, Option.some_bind, hw]
  simp [hlen]

theorem memmove_shift {m : Mem α} {p : Ptr} {blk : Block α} {n : Nat}
    (hb : block m p.base = some blk) (ho : p.off = 0) (hn : n + 1 ≤ blk.length) :
    memmove m (p.add 1) p n =
      some (setBlock m p.base (some (blk.take 1 ++ blk.take n ++ blk.drop (1 + n)))) := by
  have hr : readCells m p n = some ((blk.drop 0).take n) :=
    readCells_at hb (by simpa using ho) (by omega)
  have hlen : (blk.take n).length = n := by simp; omega
  have hw : writeCells m (p.add 1) (blk.take n) =
      some (setBlock m (p.add 1).base
        (some (blk.take 1 ++ blk.take n ++ blk.drop (1 + (blk.take n).length)))) :=
    writeCells_at (i := 1) hb (by simp [Ptr.add, ho]) (by omega)
  simp only [memmove, hr, List.drop_zero, Option.some_bind, hw]
  simp [hlen, Ptr.add]

theorem delete_arr_at {m : Mem α} {p : Ptr} {b : Block α}
    (hb : block m p.base = some b) (ho : p.off = 0) :
    delete_arr m p = some (setBlock m p.base none) := by
  have hp : p ≠ nullptr := by
    intro h
    have := (block_pos_le hb).1
    rw [h] at this
    simp [nullptr] at this
  simp [delete_arr, hp, hb, ho]

/-! ### Contents and frames -/

theorem Holds.read {m : Mem α} {v : vector} {xs : List α} (h : Holds m v xs) (i : Nat)
    (hi : i < xs.length) : v._at m i = xs[i]? := by
  obtain ⟨blk, hb, ht⟩ := h.cells
  have hl : load m (v._m_overflow_arr.add i) = (blk[i]?).join :=
    load_at (p := v._m_overflow_arr.add i) hb (by simp [Ptr.add, h.off_zero])
  have hc : blk[i]? = some xs[i]? := by
    have h1 : (blk.take xs.length)[i]? = blk[i]? := by simp [List.getElem?_take, hi]
    rw [← h1, ht]
    simp [List.getElem?_eq_getElem hi]
  simp [vector._at, vector._at_unsafe, hl, hc]

theorem Holds.le_length {m : Mem α} {v : vector} {xs : List α} {blk : Block α}
    (h : Holds m v xs) (hb : block m v._m_overflow_arr.base = some blk) :
    xs.length ≤ blk.length ∧ blk.take xs.length = xs.map some := by
  obtain ⟨blk1, hb1, ht⟩ := h.cells
  rw [hb] at hb1
  cases hb1
  refine ⟨?_, ht⟩
  have := congrArg List.length ht
  simp at this
  omega

theorem Holds.frame {m m1 : Mem α} {v : vector} {xs : List α} (h : Holds m v xs)
    (hb : block m1 v._m_overflow_arr.base = block m v._m_overflow_arr.base) : Holds m1 v xs :=
  ⟨h.size_eq, h.off_zero, by rw [hb]; exact h.cells⟩

theorem Holds.addr_le {m : Mem α} {v : vector} {xs : List α} (h : Holds m v xs) :
    v._m_overflow_arr.base ≤ m.length := by
  obtain ⟨blk, hb, _⟩ := h.cells
  exact (block_pos_le hb).2

theorem Step.refl (m : Mem α) (v : vector) : Step m v m v :=
  ⟨le_rfl, rfl, Or.inl rfl, fun _ _ _ => rfl⟩

theorem Step.sep {m m1 : Mem α} {v v1 : vector} (h : Step m v m1 v1) {c : Nat}
    (hc : c ≤ m.length) (hne : c ≠ v._m_overflow_arr.base) : c ≠ v1._m_overflow_arr.base := by
  rcases h.active with h1 | h1
  · rw [h1]; exact hne
  · omega

theorem Step.trans {m m1 m2 : Mem α} {v v1 v2 : vector} (h1 : Step m v m1 v1)
    (h2 : Step m1 v1 m2 v2) : Step m v m2 v2 := by
  refine ⟨le_trans h1.len_le h2.len_le, by rw [h2.reserve_eq, h1.reserve_eq], ?_, ?_⟩
  · rcases h2.active with a2 | a2
    · rw [a2]; exact h1.active
    · right; exact lt_of_le_of_lt h1.len_le a2
  · intro c hc hne
    rw [h2.frame c (le_trans hc h1.len_le) (h1.sep hc hne), h1.frame c hc hne]

theorem Holds.step {m m1 : Mem α} {v v1 w : vector} {ys : List α} (h : Holds m w ys)
    (hs : Step m v m1 v1) (hne : w._m_overflow_arr.base ≠ v._m_overflow_arr.base) :
    Holds m1 w ys ∧ w._m_overflow_arr.base ≠ v1._m_overflow_arr.base :=
  ⟨h.frame (hs.frame _ h.addr_le hne), hs.sep h.addr_le hne⟩

/-! ### Growth -/

theorem ptr_eq_reserve {v : vector} (h0 : v._m_overflow_arr.off = 0)
    (hb : v._m_overflow_arr.base = v._m_reserve_arr) : v._m_overflow_arr = v.reserve_ptr := by
  cases hv : v._m_overflow_arr with
  | mk b o =>
    rw [hv] at h0 hb
    simp only at h0 hb
    simp [vector.reserve_ptr, h0, hb]

theorem resize_spec {N : Nat} {m : Mem α} {v : vector} {xs : List α} (hw : WF N m v)
    (hx : Holds m v xs) :
    ∃ m1 v1, vector._resize_arr m v = some (m1, v1) ∧ WF N m1 v1 ∧ Holds m1 v1 xs ∧
      v1._m_size = v._m_size ∧ v1._m_capacity = v._m_capacity * 2 := by
  obtain ⟨blk, hb, hlen⟩ := hw.active_live
  obtain ⟨r, hr, hrlen⟩ := hw.reserve_live
  obtain ⟨hle, htake⟩ := hx.le_length hb
  have hbase : v._m_overflow_arr.base ≠ m.length + 1 := by
    have := (block_pos_le hb).2; omega
  have hres : v._m_reserve_arr ≠ m.length + 1 := by
    have := (block_pos_le hr).2; omega
  have hsz : v._m_size = xs.length := hx.size_eq
  have hroom := hw.room
  let nb : Block α := blk.take v._m_size ++ (List.replicate (v._m_capacity * 2) none).drop v._m_size
  let m2 : Mem α := setBlock (new_arr m (v._m_capacity * 2)).1 (m.length + 1) (some nb)
  have hcpy : memcpy (new_arr m (v._m_capacity * 2)).1 (new_arr m (v._m_capacity * 2)).2
      v._m_overflow_arr v._m_size = some m2 := by
    have := memcpy_at (m := (new_arr m (v._m_capacity * 2)).1)
      (p := (new_arr m (v._m_capacity * 2)).2) (q := v._m_overflow_arr)
      (d := List.replicate (v._m_capacity * 2) none) (s := blk) (n := v._m_size)
      (by simpa [new_arr_ptr] using hbase.symm)
      (by simpa [new_arr_ptr] using block_new_arr_self m _)
      (by rw [block_new_arr_ne m _ hbase]; exact hb)
      (by simp [new_arr_ptr]) hw.off_zero (by simp; omega) (by omega)
    exact this
  have hm2new : block m2 (m.length + 1) = some nb :=
    block_setBlock_self _ _ (by omega) (by simp [length_new_arr])
  have hm2old : ∀ c, c ≠ m.length + 1 → block m2 c = block m c := fun c hc => by
    rw [block_setBlock_ne _ _ hc, block_new_arr_ne m _ hc]
  have hnblen : nb.length = v._m_capacity * 2 := by
    simp only [nb, List.length_append, List.length_take, List.length_drop, List.length_replicate]
    omega
  have hnbtake : nb.take xs.length = xs.map some := by
    have h1 : (blk.take v._m_size).length = xs.length := by simp; omega
    simp only [nb]
    rw [List.take_append_of_le_length (by omega), List.take_of_length_le (by omega), hsz]
    exact htake
  by_cases hov : v._m_overflow_arr = v.reserve_ptr
  · refine ⟨m2, { v with _m_capacity := v._m_capacity * 2,
                         _m_overflow_arr := (new_arr m (v._m_capacity * 2)).2 }, ?_, ?_, ?_, rfl, rfl⟩
    · have hov1 : v._m_overflow_arr = ⟨v._m_reserve_arr, 0⟩ := hov
      simp only [vector._resize_arr, hcpy, Option.some_bind]
      simp [hov1, vector.reserve_ptr]
    · exact ⟨rfl, ⟨r, by rw [hm2old _ hres]; exact hr, hrlen⟩,
        ⟨nb, hm2new, hnblen⟩, by show v._m_size < v._m_capacity * 2; omega⟩
    · exact ⟨hsz, rfl, ⟨nb, hm2new, hnbtake⟩⟩
  · have hbr : v._m_overflow_arr.base ≠ v._m_reserve_arr := fun e =>
      hov (ptr_eq_reserve hw.off_zero e)
    have hdel : delete_arr m2 v._m_overflow_arr = some (setBlock m2 v._m_overflow_arr.base none) :=
      delete_arr_at (b := blk) (by rw [hm2old _ hbase]; exact hb) hw.off_zero
    refine ⟨setBlock m2 v._m_overflow_arr.base none,
      { v with _m_capacity := v._m_capacity * 2,
               _m_overflow_arr := (new_arr m (v._m_capacity * 2)).2 }, ?_, ?_, ?_, rfl, rfl⟩
    · have hov1 : ¬ (v._m_overflow_arr = vector.reserve_ptr
          { v with _m_capacity := v._m_capacity * 2 }) := hov
      simp only [vector._resize_arr, hcpy, Option.some_bind]
      simp [hov1, hdel]
    · exact ⟨rfl, ⟨r, by rw [block_setBlock_ne _ _ (Ne.symm hbr), hm2old _ hres]; exact hr, hrlen⟩,
        ⟨nb, by
          show block _ (m.length + 1) = some nb
          rw [block_setBlock_ne _ _ (Ne.symm hbase)]; exact hm2new, hnblen⟩,
        by show v._m_size < v._m_capacity * 2; omega⟩
    · exact ⟨hsz, rfl, ⟨nb, by
        show block _ (m.length + 1) = some nb
        rw [block_setBlock_ne _ _ (Ne.symm hbase)]; exact hm2new, hnbtake⟩⟩

theorem resize_step {m m1 : Mem α} {v v1 : vector} (h : vector._resize_arr m v = some (m1, v1)) :
    Step m v m1 v1 ∧ m1.length = m.length + 1 ∧ v1._m_overflow_arr = ⟨m.length + 1, 0⟩ ∧
      v1._m_size = v._m_size ∧ v1._m_capacity = v._m_capacity * 2 := by
  unfold vector._resize_arr at h
  simp only at h
  rcases Option.bind_eq_some.1 h with ⟨m2, hcpy, h⟩
  rcases Option.bind_eq_some.1 h with ⟨m3, hdel, h⟩
  cases h
  have t1 := memcpy_touches hcpy
  rw [new_arr_ptr] at t1
  have t2 : Touches m2 m1 v._m_overflow_arr.base := by
    split at hdel
    · exact delete_arr_touches hdel
    · cases hdel; exact touches_refl _ _
  have hl : m1.length = m.length + 1 := by rw [t2.1, t1.1, length_new_arr]
  refine ⟨⟨by omega, rfl, Or.inr (by simp [new_arr_ptr]), ?_⟩, hl, rfl, rfl, rfl⟩
  intro c hc hne
  have hc1 : c ≠ m.length + 1 := by omega
  rw [t2.2 c hne, t1.2 c hc1, block_new_arr_ne m _ hc1]

/-! ### Appending and prepending one value -/

theorem take_set_succ {β : Type} (l : List β) (n : Nat) (a : β) (h : n < l.length) :
    (l.set n a).take (n + 1) = l.take n ++ [a] := by
  induction l generalizing n with
  | nil => simp at h
  | cons b t ih =>
    cases n with
    | zero => simp
    | succ k =>
      have hk : k < t.length := by simpa using h
      simp [ih k hk]

theorem take_shift {β : Type} (l : List β) (n : Nat) (a : β) (h : n + 1 ≤ l.length) :
    ((l.take 1 ++ l.take n ++ l.drop (1 + n)).set 0 a).take (n + 1) = a :: l.take n ∧
      ((l.take 1 ++ l.take n ++ l.drop (1 + n)).set 0 a).length = l.length := by
  cases l with
  | nil => simp at h
  | cons b t =>
    have hn : n ≤ t.length := by simpa using h
    constructor
    · simp only [List.take_succ_cons, List.take_zero, List.singleton_append, List.cons_append,
        List.set_cons_zero, List.cons.injEq, true_and]
      rw [List.take_append_of_le_length (by simp; omega)]
      simp
    · simp
      omega

theorem room_spec {N : Nat} {m : Mem α} {v : vector} {xs : List α} (hw : WF N m v)
    (hx : Holds m v xs) :
    ∃ m1 v1, (if v._m_size + 1 = v._m_capacity then vector._resize_arr m v else some (m, v)) =
        some (m1, v1) ∧ WF N m1 v1 ∧ Holds m1 v1 xs ∧ v1._m_size = v._m_size ∧
        v1._m_size + 1 < v1._m_capacity := by
  by_cases hg : v._m_size + 1 = v._m_capacity
  · obtain ⟨m1, v1, h, hw1, hx1, hs, hc⟩ := resize_spec hw hx
    exact ⟨m1, v1, by simp [hg, h], hw1, hx1, hs, by omega⟩
  · have := hw.room
    exact ⟨m, v, by simp [hg], hw, hx, rfl, by omega⟩

theorem push_back_spec {N : Nat} {m : Mem α} {v : vector} {xs : List α} (hw : WF N m v)
    (hx : Holds m v xs) (x : α) :
    ∃ m2 v2, vector._push_back m v x = some (m2, v2) ∧ WF N m2 v2 ∧ Holds m2 v2 (xs ++ [x]) := by
  obtain ⟨m1, v1, h1, hw1, hx1, hs1, hroom⟩ := room_spec hw hx
  obtain ⟨blk, hb, hlen⟩ := hw1.active_live
  obtain ⟨r, hr, hrlen⟩ := hw1.reserve_live
  obtain ⟨hle, htake⟩ := hx1.le_length hb
  have hsz : v1._m_size = xs.length := hx1.size_eq
  have hst : store m1 (v1._m_overflow_arr.add v1._m_size) x =
      some (setBlock m1 v1._m_overflow_arr.base (some (blk.set v1._m_size (some x)))) :=
    store_at (p := v1._m_overflow_arr.add v1._m_size) hb (by simp [Ptr.add, hw1.off_zero])
      (by omega) x
  refine ⟨setBlock m1 v1._m_overflow_arr.base (some (blk.set v1._m_size (some x))),
    { v1 with _m_size := v1._m_size + 1 }, ?_, ?_, ?_⟩
  · simp only [vector._push_back, h1, Option.some_bind, hst]
  · refine ⟨hw1.off_zero, ?_, ⟨_, block_setBlock_live m1 _ hb, by simpa using hlen⟩, ?_⟩
    · by_cases hbr : v1._m_reserve_arr = v1._m_overflow_arr.base
      · refine ⟨_, by
          show block _ v1._m_reserve_arr = _
          rw [hbr]; exact block_setBlock_live m1 _ hb, ?_⟩
        rw [hbr, hb] at hr
        cases hr
        simpa using hrlen
      · exact ⟨r, by
          show block _ v1._m_reserve_arr = _
          rw [block_setBlock_ne _ _ hbr]; exact hr, hrlen⟩
    · show v1._m_size + 1 < v1._m_capacity
      exact hroom
  · refine ⟨by simp [hsz], hw1.off_zero, ⟨_, block_setBlock_live m1 _ hb, ?_⟩⟩
    rw [hsz, List.length_append, List.length_singleton, take_set_succ _ _ _ (by omega), htake]
    simp

theorem push_front_spec {N : Nat} {m : Mem α} {v : vector} {xs : List α} (hw : WF N m v)
    (hx : Holds m v xs) (x : α) :
    ∃ m2 v2, vector._push_front m v x = some (m2, v2) ∧ WF N m2 v2 ∧ Holds m2 v2 (x :: xs) := by
  obtain ⟨m1, v1, h1, hw1, hx1, hs1, hroom⟩ := room_spec hw hx
  obtain ⟨blk, hb, hlen⟩ := hw1.active_live
  obtain ⟨r, hr, hrlen⟩ := hw1.reserve_live
  obtain ⟨hle, htake⟩ := hx1.le_length hb
  have hsz : v1._m_size = xs.length := hx1.size_eq
  obtain ⟨hsh, hshlen⟩ := take_shift blk v1._m_size (some x) (by omega)
  have hmv : memmove m1 (v1._m_overflow_arr.add 1) v1._m_overflow_arr v1._m_size =
      some (setBlock m1 v1._m_overflow_arr.base
        (some (blk.take 1 ++ blk.take v1._m_size ++ blk.drop (1 + v1._m_size)))) :=
    memmove_shift hb hw1.off_zero (by omega)
  have hb2 := block_setBlock_live m1
    (some (blk.take 1 ++ blk.take v1._m_size ++ blk.drop (1 + v1._m_size))) hb
  have hst := store_at (p := v1._m_overflow_arr.add 0) (i := 0) hb2
    (by simp [Ptr.add, hw1.off_zero]) (by simp; omega) x
  have hfin : ∀ c, block (setBlock (setBlock m1 v1._m_overflow_arr.base
      (some (blk.take 1 ++ blk.take v1._m_size ++ blk.drop (1 + v1._m_size))))
      v1._m_overflow_arr.base (some ((blk.take 1 ++ blk.take v1._m_size ++
        blk.drop (1 + v1._m_size)).set 0 (some x)))) c =
      if c = v1._m_overflow_arr.base then some ((blk.take 1 ++ blk.take v1._m_size ++
        blk.drop (1 + v1._m_size)).set 0 (some x)) else block m1 c := by
    intro c
    by_cases hc : c = v1._m_overflow_arr.base
    · rw [if_pos hc, hc]; exact block_setBlock_live _ _ hb2
    · rw [if_neg hc, block_setBlock_ne _ _ hc, block_setBlock_ne _ _ hc]
  refine ⟨setBlock (setBlock m1 v1._m_overflow_arr.base
      (some (blk.take 1 ++ blk.take v1._m_size ++ blk.drop (1 + v1._m_size))))
      v1._m_overflow_arr.base (some ((blk.take 1 ++ blk.take v1._m_size ++
        blk.drop (1 + v1._m_size)).set 0 (some x))),
    { v1 with _m_size := v1._m_size + 1 }, ?_, ?_, ?_⟩
  · simp only [vector._push_front, h1, Option.some_bind, hmv]
    rw [show (v1._m_overflow_arr.add 0).base = v1._m_overflow_arr.base from rfl] at hst
    simp only [hst, Option.some_bind]
  · refine ⟨hw1.off_zero, ?_, ⟨_, by
      show block _ v1._m_overflow_arr.base = _
      rw [hfin, if_pos rfl], by rw [hshlen]; exact hlen⟩, ?_⟩
    · by_cases hbr : v1._m_reserve_arr = v1._m_overflow_arr.base
      · refine ⟨_, by
          show block _ v1._m_reserve_arr = _
          rw [hfin, if_pos hbr], ?_⟩
        rw [hbr, hb] at hr
        cases hr
        rw [hshlen]; exact hrlen
      · exact ⟨r, by
          show block _ v1._m_reserve_arr = _
          rw [hfin, if_neg hbr]; exact hr, hrlen⟩
    · show v1._m_size + 1 < v1._m_capacity
      exact hroom
  · refine ⟨by simp [hsz], hw1.off_zero, ⟨_, by
      show block _ v1._m_overflow_arr.base = _
      rw [hfin, if_pos rfl], ?_⟩⟩
    rw [List.length_cons, ← hsz, hsh, hsz, htake]
    simp

theorem room_step {m m1 : Mem α} {v v1 : vector}
    (h : (if v._m_size + 1 = v._m_capacity then vector._resize_arr m v else some (m, v)) =
      some (m1, v1)) : Step m v m1 v1 ∧ v1._m_size = v._m_size := by
  split at h
  · have := resize_step h
    exact ⟨this.1, this.2.2.2.1⟩
  · cases h; exact ⟨Step.refl _ _, rfl⟩

theorem step_of_touches {m m1 m2 : Mem α} {v v1 v2 : vector} (h : Step m v m1 v1)
    (ht : Touches m1 m2 v1._m_overflow_arr.base)
    (hr : v2._m_reserve_arr = v1._m_reserve_arr)
    (ho : v2._m_overflow_arr = v1._m_overflow_arr) : Step m v m2 v2 := by
  refine ⟨by rw [ht.1]; exact h.len_le, by rw [hr, h.reserve_eq], by rw [ho]; exact h.active, ?_⟩
  intro c hc hne
  rw [ht.2 c (h.sep hc hne), h.frame c hc hne]

theorem push_back_step {m m2 : Mem α} {v v2 : vector} {x : α}
    (h : vector._push_back m v x = some (m2, v2)) :
    Step m v m2 v2 ∧ v2._m_size = v._m_size + 1 := by
  unfold vector._push_back at h
  rcases Option.bind_eq_some.1 h with ⟨⟨m1, v1⟩, h1, h⟩
  rcases Option.bind_eq_some.1 h with ⟨m3, hst, h⟩
  cases h
  obtain ⟨s1, hs1⟩ := room_step h1
  have t := store_touches hst
  exact ⟨step_of_touches s1 t rfl rfl, by simp [hs1]⟩

theorem push_front_step {m m2 : Mem α} {v v2 : vector} {x : α}
    (h : vector._push_front m v x = some (m2, v2)) :
    Step m v m2 v2 ∧ v2._m_size = v._m_size + 1 := by
  unfold vector._push_front at h
  rcases Option.bind_eq_some.1 h with ⟨⟨m1, v1⟩, h1, h⟩
  rcases Option.bind_eq_some.1 h with ⟨m3, hmv, h⟩
  rcases Option.bind_eq_some.1 h with ⟨m4, hst, h⟩
  cases h
  obtain ⟨s1, hs1⟩ := room_step h1
  have t1 := memmove_touches hmv
  have t2 := store_touches hst
  have s2 : Step m v m3 v1 := step_of_touches s1 t1 rfl rfl
  exact ⟨step_of_touches s2 t2 rfl rfl, by simp [hs1]⟩

/-! ### Construction and runs of appends -/

theorem default_ctor_eq (N : Nat) (m : Mem α) :
    (vector.default_ctor N m).2 = ⟨m.length + 1, ⟨m.length + 1, 0⟩, N, 0⟩ := rfl

theorem default_ctor_length (N : Nat) (m : Mem α) :
    (vector.default_ctor N m).1.length = m.length + 1 := by
  simp [vector.default_ctor, vector.storage, new_arr]

theorem default_ctor_block_self (N : Nat) (m : Mem α) :
    block (vector.default_ctor N m).1 (m.length + 1) = some (List.replicate N none) :=
  block_new_arr_self m N

theorem default_ctor_block_ne (N : Nat) (m : Mem α) {c : Nat} (h : c ≠ m.length + 1) :
    block (vector.default_ctor N m).1 c = block m c :=
  block_new_arr_ne m N h

theorem default_ctor_spec {N : Nat} (hN : 1 ≤ N) (m : Mem α) :
    WF N (vector.default_ctor N m).1 (vector.default_ctor N m).2 ∧
      Holds (vector.default_ctor N m).1 (vector.default_ctor N m).2 [] := by
  have hb := default_ctor_block_self N m
  refine ⟨⟨rfl, ⟨_, hb, by simp⟩, ⟨_, hb, by simp [default_ctor_eq]⟩, ?_⟩,
    ⟨rfl, rfl, ⟨_, hb, by simp⟩⟩⟩
  show 0 < N
  omega

theorem push_back_all_spec {N : Nat} (ys : List α) {m : Mem α} {v : vector} {xs : List α}
    (hw : WF N m v) (hx : Holds m v xs) :
    ∃ m1 v1, push_back_all m v ys = some (m1, v1) ∧ WF N m1 v1 ∧ Holds m1 v1 (xs ++ ys) := by
  induction ys generalizing m v xs with
  | nil => exact ⟨m, v, rfl, hw, by simpa using hx⟩
  | cons y rest ih =>
    obtain ⟨m1, v1, h1, hw1, hx1⟩ := push_back_spec hw hx y
    obtain ⟨m2, v2, h2, hw2, hx2⟩ := ih hw1 hx1
    exact ⟨m2, v2, by simp [push_back_all, vector.push_back, h1, h2], hw2, by simpa using hx2⟩

theorem push_front_all_spec {N : Nat} (ys : List α) {m : Mem α} {v : vector} {xs : List α}
    (hw : WF N m v) (hx : Holds m v xs) :
    ∃ m1 v1, push_front_all m v ys = some (m1, v1) ∧ WF N m1 v1 ∧
      Holds m1 v1 (ys.reverse ++ xs) := by
  induction ys generalizing m v xs with
  | nil => exact ⟨m, v, rfl, hw, by simpa using hx⟩
  | cons y rest ih =>
    obtain ⟨m1, v1, h1, hw1, hx1⟩ := push_front_spec hw hx y
    obtain ⟨m2, v2, h2, hw2, hx2⟩ := ih hw1 hx1
    exact ⟨m2, v2, by simp [push_front_all, vector.push_front, h1, h2], hw2, by simpa using hx2⟩

theorem push_back_all_step (ys : List α) {m m1 : Mem α} {v v1 : vector}
    (h : push_back_all m v ys = some (m1, v1)) :
    Step m v m1 v1 ∧ v1._m_size = v._m_size + ys.length := by
  induction ys generalizing m v with
  | nil => cases h; exact ⟨Step.refl _ _, rfl⟩
  | cons y rest ih =>
    simp only [push_back_all, vector.push_back] at h
    rcases Option.bind_eq_some.1 h with ⟨⟨m2, v2⟩, h2, h3⟩
    obtain ⟨s2, z2⟩ := push_back_step h2
    obtain ⟨s3, z3⟩ := ih h3
    exact ⟨s2.trans s3, by simp [z3, z2]; omega⟩

theorem push_back_still {m m2 : Mem α} {v v2 : vector} {x : α}
    (hg : v._m_size + 1 ≠ v._m_capacity) (h : vector._push_back m v x = some (m2, v2)) :
    m2.length = m.length ∧ v2._m_overflow_arr = v._m_overflow_arr ∧
      v2._m_capacity = v._m_capacity ∧ v2._m_reserve_arr = v._m_reserve_arr := by
  unfold vector._push_back at h
  rw [if_neg hg] at h
  simp only [Option.some_bind] at h
  rcases Option.bind_eq_some.1 h with ⟨m3, hst, h⟩
  cases h
  exact ⟨(store_touches hst).1, rfl, rfl, rfl⟩

theorem push_back_all_still (ys : List α) {m m1 : Mem α} {v v1 : vector}
    (hroom : v._m_size + ys.length < v._m_capacity) (h : push_back_all m v ys = some (m1, v1)) :
    m1.length = m.length ∧ v1._m_overflow_arr = v._m_overflow_arr ∧
      v1._m_capacity = v._m_capacity ∧ v1._m_reserve_arr = v._m_reserve_arr := by
  induction ys generalizing m v with
  | nil => cases h; exact ⟨rfl, rfl, rfl, rfl⟩
  | cons y rest ih =>
    simp only [push_back_all, vector.push_back] at h
    rcases Option.bind_eq_some.1 h with ⟨⟨m2, v2⟩, h2, h3⟩
    simp only [List.length_cons] at hroom
    obtain ⟨a1, a2, a3, a4⟩ := push_back_still (by omega) h2
    obtain ⟨_, z2⟩ := push_back_step h2
    obtain ⟨b1, b2, b3, b4⟩ := ih (by rw [z2, a3]; omega) h3
    exact ⟨by rw [b1, a1], by rw [b2, a2], by rw [b3, a3], by rw [b4, a4]⟩

/-! ### Copy and move construction, destruction -/

theorem storage_eq (N : Nat) (m : Mem α) :
    vector._ctor N (vector.storage N m).2 = ⟨m.length + 1, ⟨m.length + 1, 0⟩, N, 0⟩ := rfl

theorem storage_length (N : Nat) (m : Mem α) : (vector.storage N m).1.length = m.length + 1 := by
  simp [vector.storage, new_arr]

theorem storage_block_self (N : Nat) (m : Mem α) :
    block (vector.storage N m).1 (m.length + 1) = some (List.replicate N none) :=
  block_new_arr_self m N

theorem storage_block_ne (N : Nat) (m : Mem α) {c : Nat} (h : c ≠ m.length + 1) :
    block (vector.storage N m).1 c = block m c :=
  block_new_arr_ne m N h

theorem move_ctor_big (N : Nat) (m : Mem α) (t : vector) (h : N < t._m_size) :
    vector.user_move_ctor N m t = some ((vector.storage N m).1,
      ⟨m.length + 1, t._m_overflow_arr, t._m_capacity, t._m_size⟩,
      { t with _m_overflow_arr := t.reserve_ptr }) := by
  simp [vector.user_move_ctor, vector._move, storage_eq, vector.reserve_ptr, h]

theorem move_ctor_small {N : Nat} {m : Mem α} {t : vector} {ys : List α} {blk : Block α}
    (h : t._m_size ≤ N) (hx : Holds m t ys) (hb : block m t._m_overflow_arr.base = some blk) :
    vector.user_move_ctor N m t = some (setBlock (vector.storage N m).1 (m.length + 1)
        (some (blk.take t._m_size ++ (List.replicate N none).drop t._m_size)),
      ⟨m.length + 1, ⟨m.length + 1, 0⟩, t._m_capacity, t._m_size⟩, t) := by
  obtain ⟨hle, _⟩ := hx.le_length hb
  have hsz := hx.size_eq
  have hbase : t._m_overflow_arr.base ≠ m.length + 1 := by
    have := (block_pos_le hb).2; omega
  have hcpy := memcpy_at (m := (vector.storage N m).1) (p := ⟨m.length + 1, 0⟩)
    (q := t._m_overflow_arr) (d := List.replicate N none) (s := blk) (n := t._m_size)
    (Ne.symm hbase) (storage_block_self N m) (by rw [storage_block_ne N m hbase]; exact hb)
    rfl hx.off_zero (by simpa using h) (by omega)
  have hn : ¬ N < t._m_size := by omega
  simp only [vector.user_move_ctor, vector._move, storage_eq, vector.reserve_ptr, ne_eq,
    not_true_eq_false, if_false, Option.some_bind, gt_iff_lt, hn, hcpy]

theorem move_ctor_holds {N : Nat} {m : Mem α} {t : vector} {ys : List α} (hx : Holds m t ys) :
    ∃ m1 b t1, vector.user_move_ctor N m t = some (m1, b, t1) ∧ Holds m1 b ys ∧
      b._m_reserve_arr = m.length + 1 ∧ m1.length = m.length + 1 ∧
      (∃ r, block m1 (m.length + 1) = some r) ∧
      (∀ c, c ≠ m.length + 1 → block m1 c = block m c) ∧
      t1._m_reserve_arr = t._m_reserve_arr ∧
      (N < t._m_size → b._m_overflow_arr = t._m_overflow_arr ∧
        t1._m_overflow_arr = t.reserve_ptr) ∧
      (t._m_size ≤ N → b._m_overflow_arr = b.reserve_ptr ∧ t1 = t) := by
  obtain ⟨blk, hb, ht⟩ := hx.cells
  obtain ⟨hle, _⟩ := hx.le_length hb
  have hsz := hx.size_eq
  have hbase : t._m_overflow_arr.base ≠ m.length + 1 := by
    have := (block_pos_le hb).2; omega
  rcases Nat.lt_or_ge N t._m_size with hbig | hsmall
  · refine ⟨_, _, _, move_ctor_big N m t hbig, ⟨hsz, hx.off_zero, ⟨blk, ?_, ht⟩⟩, rfl,
      storage_length N m, ⟨_, storage_block_self N m⟩, fun c hc => storage_block_ne N m hc, rfl,
      fun _ => ⟨rfl, rfl⟩, fun h => absurd h (by omega)⟩
    show block _ t._m_overflow_arr.base = _
    rw [storage_block_ne N m hbase]; exact hb
  · have hself : block (setBlock (vector.storage N m).1 (m.length + 1)
        (some (blk.take t._m_size ++ (List.replicate N none).drop t._m_size))) (m.length + 1) =
        some (blk.take t._m_size ++ (List.replicate N none).drop t._m_size) :=
      block_setBlock_self _ _ (by omega) (by rw [storage_length])
    refine ⟨_, _, _, move_ctor_small hsmall hx hb, ⟨hsz, rfl, ⟨_, hself, ?_⟩⟩, rfl,
      by rw [length_setBlock, storage_length], ⟨_, hself⟩,
      fun c hc => by rw [block_setBlock_ne _ _ hc, storage_block_ne N m hc], rfl,
      fun h => absurd h (by omega), fun _ => ⟨rfl, rfl⟩⟩
    rw [List.take_append_of_le_length (by simp; omega), hsz, List.take_take, min_self]
    exact ht

theorem destroy_spec {m : Mem α} {t : vector} (hoff : t._m_overflow_arr.off = 0)
    (hr : ∃ r, block m t._m_reserve_arr = some r)
    (ha : ∃ blk, block m t._m_overflow_arr.base = some blk) :
    ∃ m1, vector.destroy m t = some m1 ∧ m1.length = m.length ∧
      ∀ c, c ≠ t._m_overflow_arr.base → c ≠ t._m_reserve_arr → block m1 c = block m c := by
  obtain ⟨r, hr⟩ := hr
  obtain ⟨blk, hb⟩ := ha
  by_cases hov : t._m_overflow_arr = t.reserve_ptr
  · refine ⟨setBlock m t._m_reserve_arr none, ?_, length_setBlock _ _ _,
      fun c _ hc => block_setBlock_ne _ _ hc⟩
    simp [vector.destroy, vector._dtor, hov, hr]
  · have hbr : t._m_reserve_arr ≠ t._m_overflow_arr.base := fun e =>
      hov (ptr_eq_reserve hoff e.symm)
    have hdel := delete_arr_at hb hoff
    have hr1 : block (setBlock m t._m_overflow_arr.base none) t._m_reserve_arr = some r := by
      rw [block_setBlock_ne _ _ hbr]; exact hr
    refine ⟨setBlock (setBlock m t._m_overflow_arr.base none) t._m_reserve_arr none, ?_,
      by rw [length_setBlock, length_setBlock],
      fun c hc1 hc2 => by rw [block_setBlock_ne _ _ hc2, block_setBlock_ne _ _ hc1]⟩
    simp [vector.destroy, vector._dtor, hov, hdel, hr1]

/-- Move construction followed by the destruction of the source, as written at both `return`
statements of `reverse()`: the new vector holds what the source held, and no array object other
than those of the source changes. -/
theorem hand_over_spec {N : Nat} {m : Mem α} {t : vector} {ys : List α} (hx : Holds m t ys)
    (hr : ∃ r, block m t._m_reserve_arr = some r)
    (hsep : N < t._m_size → t._m_overflow_arr.base ≠ t._m_reserve_arr) :
    ∃ m3 b, ((vector.user_move_ctor N m t).bind fun r =>
        (vector.destroy r.1 r.2.2).bind fun m3 => some (m3, r.2.1)) = some (m3, b) ∧
      Holds m3 b ys ∧ (∃ r, block m3 b._m_reserve_arr = some r) ∧
      (N < b._m_size → b._m_overflow_arr.base ≠ b._m_reserve_arr) ∧
      b._m_reserve_arr = m.length + 1 ∧ m3.length = m.length + 1 ∧
      (b._m_overflow_arr.base = t._m_overflow_arr.base ∨
        b._m_overflow_arr.base = m.length + 1) ∧
      (∀ c, c ≤ m.length → c ≠ t._m_overflow_arr.base → c ≠ t._m_reserve_arr →
        block m3 c = block m c) := by
  obtain ⟨m1, b, t1, hmv, hb, hres, hlen, ⟨r1, hr1⟩, hfr, htr, hbig, hsmall⟩ :=
    move_ctor_holds (N := N) hx
  obtain ⟨blk, hblk, _⟩ := hx.cells
  obtain ⟨r, hr⟩ := hr
  have hbase : t._m_overflow_arr.base ≠ m.length + 1 := by
    have := (block_pos_le hblk).2; omega
  have hrbase : t._m_reserve_arr ≠ m.length + 1 := by
    have := (block_pos_le hr).2; omega
  have hsz : b._m_size = t._m_size := by rw [hb.size_eq, hx.size_eq]
  rcases Nat.lt_or_ge N t._m_size with hN | hN
  · obtain ⟨hbo, hto⟩ := hbig hN
    have hd := destroy_spec (m := m1) (t := t1) (by rw [hto]; rfl)
      ⟨r, by rw [htr, hfr _ hrbase]; exact hr⟩
      ⟨r, by rw [hto]; show block m1 t._m_reserve_arr = _; rw [hfr _ hrbase]; exact hr⟩
    obtain ⟨m3, hdes, hl3, hf3⟩ := hd
    have hkeep : ∀ c, c ≠ t._m_reserve_arr → block m3 c = block m1 c := fun c hc =>
      hf3 c (by rw [hto]; exact hc) (by rw [htr]; exact hc)
    refine ⟨m3, b, by simp [hmv, hdes], hb.frame ?_, ⟨r1, ?_⟩, ?_, hres, by rw [hl3, hlen],
      Or.inl (by rw [hbo]), ?_⟩
    · rw [hbo]; exact hkeep _ (hsep hN)
    · rw [hres, hkeep _ (Ne.symm hrbase)]; exact hr1
    · intro _; rw [hbo, hres]; exact hbase
    · intro c hc h1 h2
      rw [hkeep c h2, hfr c (by omega)]
  · obtain ⟨hbo, hto⟩ := hsmall hN
    subst hto
    have hd := destroy_spec (m := m1) (t := t1) hx.off_zero
      ⟨r, by rw [hfr _ hrbase]; exact hr⟩ ⟨blk, by rw [hfr _ hbase]; exact hblk⟩
    obtain ⟨m3, hdes, hl3, hf3⟩ := hd
    have hbb : b._m_overflow_arr.base = m.length + 1 := by rw [hbo]; exact hres
    refine ⟨m3, b, by simp [hmv, hdes], hb.frame ?_, ⟨r1, ?_⟩, ?_, hres, by rw [hl3, hlen],
      Or.inr hbb, ?_⟩
    · rw [hbb]; exact hf3 _ (Ne.symm hbase) (Ne.symm hrbase)
    · rw [hres, hf3 _ (Ne.symm hbase) (Ne.symm hrbase)]; exact hr1
    · intro h; omega
    · intro c hc h1 h2
      rw [hf3 c h1 h2, hfr c (by omega)]


/-! ### The two loops -/

theorem Holds.load {m : Mem α} {v : vector} {xs : List α} (h : Holds m v xs) {p : Ptr} {i : Nat}
    (hi : i < xs.length) (hp : p = ⟨v._m_overflow_arr.base, (i : Int)⟩) : load m p = xs[i]? := by
  have := h.read i hi
  simp only [vector._at, vector._at_unsafe, Ptr.add, h.off_zero, zero_add] at this
  rw [hp]; exact this

theorem WF.heap_of_big {N : Nat} {m : Mem α} {v : vector} (hw : WF N m v)
    (h : N < v._m_size) : v._m_overflow_arr.base ≠ v._m_reserve_arr := by
  intro e
  obtain ⟨r, hr, hrl⟩ := hw.reserve_live
  obtain ⟨blk, hb, hbl⟩ := hw.active_live
  rw [e, hr] at hb
  cases hb
  have := hw.room
  omega

theorem reverse_loop_spec {N : Nat} {v : vector} {xs : List α} (k : Nat) :
    ∀ (fuel : Nat) (m : Mem α) (temp : vector) (acc : List α) (it : random_access_iter),
      k < fuel → k ≤ xs.length → it._m_ptr = ⟨v._m_overflow_arr.base, (k : Int) - 1⟩ →
      Holds m v xs → WF N m temp → Holds m temp acc →
      v._m_overflow_arr.base ≠ temp._m_overflow_arr.base →
      ∃ m1 t1, vector._reverse_loop fuel m v it temp = some (m1, t1) ∧ WF N m1 t1 ∧
        Holds m1 t1 (acc ++ (xs.take k).reverse) ∧ Step m temp m1 t1 ∧
        push_back_all m temp (xs.take k).reverse = some (m1, t1) := by
  induction k with
  | zero =>
    intro fuel m temp acc it hf _ hp hv hw ht _
    obtain ⟨f, rfl⟩ : ∃ f, fuel = f + 1 := ⟨fuel - 1, by omega⟩
    have hne : it.ne v.rend = false := by
      simp [random_access_iter.ne, random_access_iter._equal, vector.rend, vector.begin,
        random_access_iter.minus, random_access_iter.from_ptr, random_access_iter._ctor_item,
        Ptr.sub, hp, hv.off_zero]
    exact ⟨m, temp, by simp [vector._reverse_loop, hne], hw, by simpa using ht, Step.refl _ _,
      by simp [push_back_all]⟩
  | succ k ih =>
    intro fuel m temp acc it hf hk hp hv hw ht hsep
    obtain ⟨f, rfl⟩ : ∃ f, fuel = f + 1 := ⟨fuel - 1, by omega⟩
    have hklt : k < xs.length := by omega
    have hp1 : it._m_ptr = ⟨v._m_overflow_arr.base, (k : Int)⟩ := by
      rw [hp]; simp
    have hne : it.ne v.rend = true := by
      have : ¬ ((k : Int) = -1) := by omega
      simp [random_access_iter.ne, random_access_iter._equal, vector.rend, vector.begin,
        random_access_iter.minus, random_access_iter.from_ptr, random_access_iter._ctor_item,
        Ptr.sub, hp1, hv.off_zero, this]
    have hld : it.deref m = some (xs[k]) := by
      rw [random_access_iter.deref, hv.load hklt hp1, List.getElem?_eq_getElem hklt]
    obtain ⟨m2, t2, hpb, hw2, ht2⟩ := push_back_spec hw ht (xs[k])
    obtain ⟨s2, _⟩ := push_back_step hpb
    obtain ⟨hv2, hsep2⟩ := hv.step s2 hsep
    have hp2 : it.pre_dec._m_ptr = ⟨v._m_overflow_arr.base, (k : Int) - 1⟩ := by
      simp [random_access_iter.pre_dec, random_access_iter._subtract, Ptr.sub, hp1]
    obtain ⟨m3, t3, hl, hw3, ht3, s3, hall⟩ :=
      ih f m2 t2 (acc ++ [xs[k]]) it.pre_dec (by omega) (by omega) hp2 hv2 hw2 ht2
        hsep2
    have e : (xs.take (k + 1)).reverse = xs[k] :: (xs.take k).reverse := by
      rw [List.take_succ, List.getElem?_eq_getElem hklt]
      simp
    refine ⟨m3, t3, ?_, hw3, ?_, s2.trans s3, ?_⟩
    · simp [vector._reverse_loop, hne, hld, vector.push_back, hpb, hl]
    · rw [e]
      simpa using ht3
    · rw [e]
      simp [push_back_all, vector.push_back, hpb, hall]

theorem add_loop_spec {N : Nat} {w : vector} {ys : List α} (d : Nat) :
    ∀ (fuel : Nat) (m : Mem α) (a : vector) (acc : List α) (it : random_access_iter) (i : Nat),
      d < fuel → i + d = ys.length → it._m_ptr = ⟨w._m_overflow_arr.base, (i : Int)⟩ →
      Holds m w ys → WF N m a → Holds m a acc →
      w._m_overflow_arr.base ≠ a._m_overflow_arr.base →
      ∃ m1 a1, vector._add_vector_loop fuel m a it w.end_ = some (m1, a1) ∧ WF N m1 a1 ∧
        Holds m1 a1 (acc ++ ys.drop i) ∧ Step m a m1 a1 := by
  induction d with
  | zero =>
    intro fuel m a acc it i hf hi hp hv hw ht _
    obtain ⟨f, rfl⟩ : ∃ f, fuel = f + 1 := ⟨fuel - 1, by omega⟩
    have hi0 : i = ys.length := by omega
    have hne : it.ne w.end_ = false := by
      simp [random_access_iter.ne, random_access_iter._equal, vector.end_,
        random_access_iter.from_ptr, random_access_iter._ctor_item, Ptr.add, hp, hv.off_zero,
        hv.size_eq, hi0]
    exact ⟨m, a, by simp [vector._add_vector_loop, hne], hw, by simpa [hi0] using ht,
      Step.refl _ _⟩
  | succ d ih =>
    intro fuel m a acc it i hf hi hp hv hw ht hsep
    obtain ⟨f, rfl⟩ : ∃ f, fuel = f + 1 := ⟨fuel - 1, by omega⟩
    have hilt : i < ys.length := by omega
    have hne : it.ne w.end_ = true := by
      have : ¬ ((i : Int) = (ys.length : Int)) := by omega
      simp [random_access_iter.ne, random_access_iter._equal, vector.end_,
        random_access_iter.from_ptr, random_access_iter._ctor_item, Ptr.add, hp, hv.off_zero,
        hv.size_eq, this]
    have hld : it.deref m = some (ys[i]) := by
      rw [random_access_iter.deref, hv.load hilt hp, List.getElem?_eq_getElem hilt]
    obtain ⟨m2, a2, hpb, hw2, ht2⟩ := push_back_spec hw ht (ys[i])
    obtain ⟨s2, _⟩ := push_back_step hpb
    obtain ⟨hv2, hsep2⟩ := hv.step s2 hsep
    have hp2 : it.pre_inc._m_ptr = ⟨w._m_overflow_arr.base, ((i + 1 : Nat) : Int)⟩ := by
      simp [random_access_iter.pre_inc, random_access_iter._add, Ptr.add, hp]
    obtain ⟨m3, a3, hl, hw3, ht3, s3⟩ :=
      ih f m2 a2 (acc ++ [ys[i]]) it.pre_inc (i + 1) (by omega) (by omega) hp2 hv2
        hw2 ht2 hsep2
    refine ⟨m3, a3, ?_, hw3, ?_, s2.trans s3⟩
    · simp [vector._add_vector_loop, hne, hld, vector.push_back, hpb, hl]
    · have e : ys.drop i = ys[i] :: ys.drop (i + 1) := by
        rw [List.drop_eq_getElem_cons hilt]
      rw [e]
      simpa using ht3

theorem add_vector_spec {N : Nat} {m : Mem α} {a w : vector} {xs ys : List α} {fuel : Nat}
    (hf : ys.length < fuel) (hw : WF N m a) (ha : Holds m a xs) (hb : Holds m w ys)
    (hsep : w._m_overflow_arr.base ≠ a._m_overflow_arr.base) :
    ∃ m1 a1, vector._add_vector fuel m a w = some (m1, a1) ∧ WF N m1 a1 ∧
      Holds m1 a1 (xs ++ ys) ∧ Holds m1 w ys ∧ Step m a m1 a1 := by
  have hp : w.begin._m_ptr = ⟨w._m_overflow_arr.base, ((0 : Nat) : Int)⟩ := by
    simp only [vector.begin, random_access_iter.from_ptr, random_access_iter._ctor_item]
    cases hq : w._m_overflow_arr with
    | mk b o =>
      have := hb.off_zero
      rw [hq] at this
      simp only at this
      simp [this]
  obtain ⟨m1, a1, h, hw1, ha1, s⟩ :=
    add_loop_spec (N := N) ys.length fuel m a xs w.begin 0 hf (by omega) hp hb hw ha hsep
  exact ⟨m1, a1, h, hw1, by simpa using ha1, (hb.step s hsep).1, s⟩

theorem reverse_spec {N : Nat} (hN : 1 ≤ N) {m : Mem α} {v : vector} {xs : List α} {fuel : Nat}
    (hf : xs.length < fuel) (hx : Holds m v xs) :
    ∃ m1 r, vector.reverse N fuel m v = some (m1, r) ∧ Holds m1 r xs.reverse ∧
      Holds m1 v xs ∧ r._m_overflow_arr.base ≠ v._m_overflow_arr.base := by
  obtain ⟨hw0, ht0⟩ := default_ctor_spec hN m
  have hvle := hx.addr_le
  have hvne : v._m_overflow_arr.base ≠ m.length + 1 := by omega
  have hv0 : Holds (vector.default_ctor N m).1 v xs := hx.frame (default_ctor_block_ne N m hvne)
  have hp : v.rbegin._m_ptr = ⟨v._m_overflow_arr.base, (xs.length : Int) - 1⟩ := by
    simp [vector.rbegin, vector.end_, random_access_iter.minus, random_access_iter.from_ptr,
      random_access_iter._ctor_item, Ptr.add, Ptr.sub, hx.off_zero, hx.size_eq]
  obtain ⟨m1, t1, hloop, hw1, ht1, s1, _⟩ :=
    reverse_loop_spec (N := N) xs.length fuel (vector.default_ctor N m).1
      (vector.default_ctor N m).2 [] v.rbegin hf le_rfl hp hv0 hw0 ht0 hvne
  rw [List.nil_append, List.take_length] at ht1
  have hl0 := default_ctor_length N m
  obtain ⟨hv1, hsep1⟩ := hv0.step s1 hvne
  have hres1 : t1._m_reserve_arr = m.length + 1 := s1.reserve_eq
  obtain ⟨r1, hr1, _⟩ := hw1.reserve_live
  obtain ⟨m3, b, h3, hb3, hbr3, hbs3, hbres, hl3, hbo3, hf3⟩ :=
    hand_over_spec (N := N) ht1 ⟨r1, hr1⟩ hw1.heap_of_big
  have hlen1 : m.length + 1 ≤ m1.length := by rw [← hl0]; exact s1.len_le
  have hv3 : Holds m3 v xs :=
    hv1.frame (hf3 _ (by omega) hsep1 (by rw [hres1]; exact hvne))
  obtain ⟨m5, r, h5, hr5, _, _, _, _, hro5, hf5⟩ := hand_over_spec (N := N) hb3 hbr3 hbs3
  have hvb : v._m_overflow_arr.base ≠ b._m_overflow_arr.base := by
    rcases hbo3 with e | e
    · rw [e]; exact hsep1
    · rw [e]; omega
  have hv5 : Holds m5 v xs :=
    hv3.frame (hf5 _ (by omega) hvb (by rw [hbres]; omega))
  have hvr : r._m_overflow_arr.base ≠ v._m_overflow_arr.base := by
    rcases hro5 with e | e
    · rw [e]; exact Ne.symm hvb
    · rw [e]; omega
  refine ⟨m5, r, ?_, hr5, hv5, hvr⟩
  have hc : vector._create_reverse_vector N fuel m v = some (m3, b) := by
    simp only [vector._create_reverse_vector, hloop, Option.some_bind]
    exact h3
  simp only [vector.reverse, hc, Option.some_bind]
  exact h5


/-! ### Copy construction and runs of mutations -/

theorem copy_ctor_small {N : Nat} {m : Mem α} {t : vector} {ys : List α} {blk : Block α}
    (h : t._m_size ≤ N) (hx : Holds m t ys) (hb : block m t._m_overflow_arr.base = some blk) :
    vector.user_copy_ctor N m t = some (setBlock (vector.storage N m).1 (m.length + 1)
        (some (blk.take t._m_size ++ (List.replicate N none).drop t._m_size)),
      ⟨m.length + 1, ⟨m.length + 1, 0⟩, t._m_capacity, t._m_size⟩) := by
  obtain ⟨hle, _⟩ := hx.le_length hb
  have hsz := hx.size_eq
  have hbase : t._m_overflow_arr.base ≠ m.length + 1 := by
    have := (block_pos_le hb).2; omega
  have hcpy := memcpy_at (m := (vector.storage N m).1) (p := ⟨m.length + 1, 0⟩)
    (q := t._m_overflow_arr) (d := List.replicate N none) (s := blk) (n := t._m_size)
    (Ne.symm hbase) (storage_block_self N m) (by rw [storage_block_ne N m hbase]; exact hb)
    rfl hx.off_zero (by simpa using h) (by omega)
  have hn : ¬ N < t._m_size := by omega
  simp only [vector.user_copy_ctor, vector._copy, storage_eq, vector.reserve_ptr, ne_eq,
    not_true_eq_false, if_false, Option.some_bind, gt_iff_lt, hn, hcpy]

theorem copy_ctor_big {N : Nat} {m : Mem α} {t : vector} {ys : List α} {blk : Block α}
    (h : N < t._m_size) (hcap : t._m_size ≤ t._m_capacity) (hx : Holds m t ys)
    (hb : block m t._m_overflow_arr.base = some blk) :
    vector.user_copy_ctor N m t = some (setBlock (new_arr (vector.storage N m).1 t._m_capacity).1
        (m.length + 2)
        (some (blk.take t._m_size ++ (List.replicate t._m_capacity none).drop t._m_size)),
      ⟨m.length + 1, ⟨m.length + 2, 0⟩, t._m_capacity, t._m_size⟩) := by
  obtain ⟨hle, _⟩ := hx.le_length hb
  have hsz := hx.size_eq
  have hle0 := (block_pos_le hb).2
  have hbase1 : t._m_overflow_arr.base ≠ m.length + 1 := by omega
  have hbase2 : t._m_overflow_arr.base ≠ m.length + 2 := by omega
  have hl1 := storage_length N m
  have hptr : (new_arr (vector.storage N m).1 t._m_capacity).2 = ⟨m.length + 2, 0⟩ := by
    rw [new_arr_ptr, hl1]
  have hself : block (new_arr (vector.storage N m).1 t._m_capacity).1 (m.length + 2) =
      some (List.replicate t._m_capacity none) := by
    have := block_new_arr_self (vector.storage N m).1 t._m_capacity
    rw [hl1] at this
    exact this
  have hold : block (new_arr (vector.storage N m).1 t._m_capacity).1 t._m_overflow_arr.base =
      some blk := by
    rw [block_new_arr_ne _ _ (by rw [hl1]; exact hbase2), storage_block_ne N m hbase1]
    exact hb
  have hcpy := memcpy_at (m := (new_arr (vector.storage N m).1 t._m_capacity).1)
    (p := ⟨m.length + 2, 0⟩) (q := t._m_overflow_arr) (d := List.replicate t._m_capacity none)
    (s := blk) (n := t._m_size) (Ne.symm hbase2) hself hold rfl hx.off_zero
    (by simpa using hcap) (by omega)
  simp only [vector.user_copy_ctor, vector._copy, storage_eq, vector.reserve_ptr, ne_eq,
    not_true_eq_false, if_false, Option.some_bind, gt_iff_lt, h, if_true, hptr, hcpy]

theorem copy_ctor_frame {N : Nat} {m m1 : Mem α} {t b : vector}
    (h : vector.user_copy_ctor N m t = some (m1, b)) :
    m.length < b._m_overflow_arr.base ∧ m.length ≤ m1.length ∧
      ∀ c, c ≤ m.length → block m1 c = block m c := by
  simp only [vector.user_copy_ctor, vector._copy, storage_eq, vector.reserve_ptr, ne_eq,
    not_true_eq_false, if_false, Option.some_bind, gt_iff_lt] at h
  have hl1 := storage_length N m
  split at h
  · rcases Option.bind_eq_some.1 h with ⟨m3, hcpy, h⟩
    cases h
    have t := memcpy_touches hcpy
    simp only [new_arr_ptr, hl1] at t
    refine ⟨by simp only [new_arr_ptr, hl1]; omega, by rw [t.1, length_new_arr, hl1]; omega, ?_⟩
    intro c hc
    rw [t.2 c (by omega), block_new_arr_ne _ _ (by rw [hl1]; omega),
      storage_block_ne N m (by omega)]
  · rcases Option.bind_eq_some.1 h with ⟨m3, hcpy, h⟩
    cases h
    have t := memcpy_touches hcpy
    simp only at t
    refine ⟨by simp, by rw [t.1, hl1]; omega, ?_⟩
    intro c hc
    rw [t.2 c (by omega), storage_block_ne N m (by omega)]

theorem apply_step {m m1 : Mem α} {v v1 : vector} {o : Op α} (h : o.apply m v = some (m1, v1)) :
    Step m v m1 v1 := by
  cases o with
  | push_back x => exact (push_back_step h).1
  | push_front x => exact (push_front_step h).1
  | assign i x =>
    simp only [Op.apply, vector.assign_at] at h
    rcases Option.bind_eq_some.1 h with ⟨m2, hst, h⟩
    cases h
    have t : Touches m m1 v._m_overflow_arr.base :=
      store_touches (p := v._m_overflow_arr.add i) hst
    exact step_of_touches (Step.refl m v) t rfl rfl

theorem run_step (ops : List (Op α)) {m m1 : Mem α} {v v1 : vector}
    (h : run m v ops = some (m1, v1)) : Step m v m1 v1 := by
  induction ops generalizing m v with
  | nil => cases h; exact Step.refl _ _
  | cons o rest ih =>
    simp only [run] at h
    rcases Option.bind_eq_some.1 h with ⟨⟨m2, v2⟩, h2, h3⟩
    exact (apply_step h2).trans (ih h3)

theorem run_push_spec {N : Nat} (ops : List (Op α)) {m : Mem α} {v : vector} {xs : List α}
    (hp : ∀ o ∈ ops, o.is_push = true) (hw : WF N m v) (hx : Holds m v xs) :
    ∃ m1 v1 zs, run m v ops = some (m1, v1) ∧ WF N m1 v1 ∧ Holds m1 v1 zs := by
  induction ops generalizing m v xs with
  | nil => exact ⟨m, v, xs, rfl, hw, hx⟩
  | cons o rest ih =>
    have hrest : ∀ o ∈ rest, o.is_push = true := fun o ho => hp o (List.mem_cons_of_mem _ ho)
    have ho := hp o (List.mem_cons_self _ _)
    cases o with
    | push_back x =>
      obtain ⟨m1, v1, h1, hw1, hx1⟩ := push_back_spec hw hx x
      obtain ⟨m2, v2, zs, h2, hw2, hx2⟩ := ih hrest hw1 hx1
      exact ⟨m2, v2, zs, by simp [run, Op.apply, vector.push_back, h1, h2], hw2, hx2⟩
    | push_front x =>
      obtain ⟨m1, v1, h1, hw1, hx1⟩ := push_front_spec hw hx x
      obtain ⟨m2, v2, zs, h2, hw2, hx2⟩ := ih hrest hw1 hx1
      exact ⟨m2, v2, zs, by simp [run, Op.apply, vector.push_front, h1, h2], hw2, hx2⟩
    | assign i x => simp [Op.is_push] at ho


/-! ### Size and capacity after one push -/

theorem push_back_grow {m m2 : Mem α} {v v2 : vector} {x : α}
    (hg : v._m_size + 1 = v._m_capacity) (h : vector._push_back m v x = some (m2, v2)) :
    m2.length = m.length + 1 ∧ v2._m_overflow_arr = ⟨m.length + 1, 0⟩ ∧
      v2._m_capacity = v._m_capacity * 2 ∧ v2._m_reserve_arr = v._m_reserve_arr := by
  unfold vector._push_back at h
  rw [if_pos hg] at h
  rcases Option.bind_eq_some.1 h with ⟨⟨m1, v1⟩, h1, h⟩
  rcases Option.bind_eq_some.1 h with ⟨m3, hst, h⟩
  cases h
  obtain ⟨s, hl, ho, _, hc⟩ := resize_step h1
  exact ⟨by rw [(store_touches hst).1, hl], ho, hc, s.reserve_eq⟩

theorem push_front_grow {m m2 : Mem α} {v v2 : vector} {x : α}
    (hg : v._m_size + 1 = v._m_capacity) (h : vector._push_front m v x = some (m2, v2)) :
    m2.length = m.length + 1 ∧ v2._m_overflow_arr = ⟨m.length + 1, 0⟩ ∧
      v2._m_capacity = v._m_capacity * 2 ∧ v2._m_reserve_arr = v._m_reserve_arr := by
  unfold vector._push_front at h
  rw [if_pos hg] at h
  rcases Option.bind_eq_some.1 h with ⟨⟨m1, v1⟩, h1, h⟩
  rcases Option.bind_eq_some.1 h with ⟨m3, hmv, h⟩
  rcases Option.bind_eq_some.1 h with ⟨m4, hst, h⟩
  cases h
  obtain ⟨s, hl, ho, _, hc⟩ := resize_step h1
  exact ⟨by rw [(store_touches hst).1, (memmove_touches hmv).1, hl], ho, hc, s.reserve_eq⟩

theorem push_front_still {m m2 : Mem α} {v v2 : vector} {x : α}
    (hg : v._m_size + 1 ≠ v._m_capacity) (h : vector._push_front m v x = some (m2, v2)) :
    m2.length = m.length ∧ v2._m_overflow_arr = v._m_overflow_arr ∧
      v2._m_capacity = v._m_capacity ∧ v2._m_reserve_arr = v._m_reserve_arr := by
  unfold vector._push_front at h
  rw [if_neg hg] at h
  simp only [Option.some_bind] at h
  rcases Option.bind_eq_some.1 h with ⟨m3, hmv, h⟩
  rcases Option.bind_eq_some.1 h with ⟨m4, hst, h⟩
  cases h
  exact ⟨by rw [(store_touches hst).1, (memmove_touches hmv).1], rfl, rfl, rfl⟩

theorem push_back_room {m m2 : Mem α} {v v2 : vector} {x : α}
    (h : vector._push_back m v x = some (m2, v2)) (hr : v._m_size < v._m_capacity) :
    v2._m_size < v2._m_capacity := by
  obtain ⟨_, hs⟩ := push_back_step h
  by_cases hg : v._m_size + 1 = v._m_capacity
  · obtain ⟨_, _, hc, _⟩ := push_back_grow hg h
    omega
  · obtain ⟨_, _, hc, _⟩ := push_back_still hg h
    omega

theorem push_front_room {m m2 : Mem α} {v v2 : vector} {x : α}
    (h : vector._push_front m v x = some (m2, v2)) (hr : v._m_size < v._m_capacity) :
    v2._m_size < v2._m_capacity := by
  obtain ⟨_, hs⟩ := push_front_step h
  by_cases hg : v._m_size + 1 = v._m_capacity
  · obtain ⟨_, _, hc, _⟩ := push_front_grow hg h
    omega
  · obtain ⟨_, _, hc, _⟩ := push_front_still hg h
    omega

theorem add_loop_room (fuel : Nat) {m m1 : Mem α} {a a1 : vector} {it last : random_access_iter}
    (h : vector._add_vector_loop fuel m a it last = some (m1, a1))
    (hr : a._m_size < a._m_capacity) : a1._m_size < a1._m_capacity := by
  induction fuel generalizing m a it with
  | zero => simp [vector._add_vector_loop] at h
  | succ f ih =>
    rw [vector._add_vector_loop] at h
    split at h
    · rcases Option.bind_eq_some.1 h with ⟨x, _, h⟩
      rcases Option.bind_eq_some.1 h with ⟨⟨m2, a2⟩, hp, h⟩
      exact ih h (push_back_room hp hr)
    · cases h; exact hr

theorem copy_ctor_fields {N : Nat} {m m1 : Mem α} {t b : vector}
    (h : vector.user_copy_ctor N m t = some (m1, b)) :
    b._m_size = t._m_size ∧ b._m_capacity = t._m_capacity := by
  simp only [vector.user_copy_ctor, vector._copy, storage_eq, vector.reserve_ptr, ne_eq,
    not_true_eq_false, if_false, Option.some_bind, gt_iff_lt] at h
  rcases Option.bind_eq_some.1 h with ⟨m3, _, h⟩
  cases h
  split <;> exact ⟨rfl, rfl⟩

theorem move_ctor_fields {N : Nat} {m m1 : Mem α} {t b t1 : vector}
    (h : vector.user_move_ctor N m t = some (m1, b, t1)) :
    b._m_size = t._m_size ∧ b._m_capacity = t._m_capacity ∧
      t1._m_size = t._m_size ∧ t1._m_capacity = t._m_capacity := by
  simp only [vector.user_move_ctor, vector._move, storage_eq, vector.reserve_ptr, ne_eq,
    not_true_eq_false, if_false, Option.some_bind, gt_iff_lt] at h
  split at h
  · cases h; exact ⟨rfl, rfl, rfl, rfl⟩
  · rcases Option.bind_eq_some.1 h with ⟨m3, _, h⟩
    cases h; exact ⟨rfl, rfl, rfl, rfl⟩

/-! ### Iterator positions -/

theorem iterate_pre_dec (k : Nat) (it : random_access_iter) :
    Nat.iterate random_access_iter.pre_dec k it =
      ⟨⟨it._m_ptr.base, it._m_ptr.off - (k : Int)⟩⟩ := by
  induction k with
  | zero => simp
  | succ k ih =>
    rw [Function.iterate_succ_apply', ih]
    simp only [random_access_iter.pre_dec, random_access_iter._subtract, Ptr.sub]
    congr 2
    push_cast
    ring

theorem iterate_pre_inc (k : Nat) (it : random_access_iter) :
    Nat.iterate random_access_iter.pre_inc k it =
      ⟨⟨it._m_ptr.base, it._m_ptr.off + (k : Int)⟩⟩ := by
  induction k with
  | zero => simp
  | succ k ih =>
    rw [Function.iterate_succ_apply', ih]
    simp only [random_access_iter.pre_inc, random_access_iter._add, Ptr.add]
    congr 2
    push_cast
    ring


/-! ### Capacity along a run of pushes -/

theorem block_fresh (m : Mem α) : block m (m.length + 1) = none := by
  cases hq : block m (m.length + 1) with
  | none => rfl
  | some q => have := (block_pos_le hq).2; omega

theorem WF.fresh_ne_reserve {N : Nat} {m : Mem α} {v v1 : vector} (hw : WF N m v)
    (ho : v1._m_overflow_arr = ⟨m.length + 1, 0⟩) (hr : v1._m_reserve_arr = v._m_reserve_arr) :
    v1._m_overflow_arr ≠ v1.reserve_ptr := by
  obtain ⟨r, hb, _⟩ := hw.reserve_live
  have := (block_pos_le hb).2
  intro e
  rw [ho, vector.reserve_ptr, hr] at e
  simp only [Ptr.mk.injEq, and_true] at e
  omega

theorem doubling_step {N : Nat} {v v1 : vector} (hd : Doubling N v)
    (hs : v1._m_size = v._m_size + 1)
    (hr : v1._m_reserve_arr = v._m_reserve_arr)
    (hg : v._m_size + 1 = v._m_capacity →
      v1._m_capacity = v._m_capacity * 2 ∧ v1._m_overflow_arr ≠ v1.reserve_ptr)
    (hn : v._m_size + 1 ≠ v._m_capacity →
      v1._m_capacity = v._m_capacity ∧ v1._m_overflow_arr = v._m_overflow_arr) :
    Doubling N v1 := by
  have hrp : v1.reserve_ptr = v.reserve_ptr := by simp [vector.reserve_ptr, hr]
  by_cases hc : v._m_size + 1 = v._m_capacity
  · obtain ⟨hc1, ho1⟩ := hg hc
    rcases hd with ⟨hcap, _⟩ | ⟨j, hcap, hle, _⟩
    · exact Or.inr ⟨0, by rw [hc1, hcap]; simp, by simp; omega, ho1⟩
    · refine Or.inr ⟨j + 1, by rw [hc1, hcap]; ring, ?_, ho1⟩
      omega
  · obtain ⟨hc1, ho1⟩ := hn hc
    rcases hd with ⟨hcap, ho⟩ | ⟨j, hcap, hle, ho⟩
    · exact Or.inl ⟨by rw [hc1, hcap], by rw [ho1, ho, hrp]⟩
    · exact Or.inr ⟨j, by rw [hc1, hcap], by omega, by rw [ho1, hrp]; exact ho⟩

theorem run_push_doubling {N : Nat} (ops : List (Op α)) {m : Mem α} {v : vector} {xs : List α}
    (hp : ∀ o ∈ ops, o.is_push = true) (hw : WF N m v) (hx : Holds m v xs)
    (hd : Doubling N v) :
    ∃ m1 v1 zs, run m v ops = some (m1, v1) ∧ WF N m1 v1 ∧ Holds m1 v1 zs ∧ Doubling N v1 ∧
      v1._m_size = v._m_size + ops.length := by
  induction ops generalizing m v xs with
  | nil => exact ⟨m, v, xs, rfl, hw, hx, hd, rfl⟩
  | cons o rest ih =>
    have hrest : ∀ o ∈ rest, o.is_push = true := fun o ho => hp o (List.mem_cons_of_mem _ ho)
    have ho := hp o (List.mem_cons_self _ _)
    cases o with
    | push_back x =>
      obtain ⟨m1, v1, h1, hw1, hx1⟩ := push_back_spec hw hx x
      obtain ⟨_, hs1⟩ := push_back_step h1
      have hd1 : Doubling N v1 := doubling_step hd hs1
        (by by_cases hc : v._m_size + 1 = v._m_capacity
            · exact (push_back_grow hc h1).2.2.2
            · exact (push_back_still hc h1).2.2.2)
        (fun hc => ⟨(push_back_grow hc h1).2.2.1,
          hw.fresh_ne_reserve (push_back_grow hc h1).2.1 (push_back_grow hc h1).2.2.2⟩)
        (fun hc => ⟨(push_back_still hc h1).2.2.1, (push_back_still hc h1).2.1⟩)
      obtain ⟨m2, v2, zs, h2, hw2, hx2, hd2, hs2⟩ := ih hrest hw1 hx1 hd1
      exact ⟨m2, v2, zs, by simp [run, Op.apply, vector.push_back, h1, h2], hw2, hx2, hd2,
        by rw [hs2, hs1, List.length_cons]; omega⟩
    | push_front x =>
      obtain ⟨m1, v1, h1, hw1, hx1⟩ := push_front_spec hw hx x
      obtain ⟨_, hs1⟩ := push_front_step h1
      have hd1 : Doubling N v1 := doubling_step hd hs1
        (by by_cases hc : v._m_size + 1 = v._m_capacity
            · exact (push_front_grow hc h1).2.2.2
            · exact (push_front_still hc h1).2.2.2)
        (fun hc => ⟨(push_front_grow hc h1).2.2.1,
          hw.fresh_ne_reserve (push_front_grow hc h1).2.1 (push_front_grow hc h1).2.2.2⟩)
        (fun hc => ⟨(push_front_still hc h1).2.2.1, (push_front_still hc h1).2.1⟩)
      obtain ⟨m2, v2, zs, h2, hw2, hx2, hd2, hs2⟩ := ih hrest hw1 hx1 hd1
      exact ⟨m2, v2, zs, by simp [run, Op.apply, vector.push_front, h1, h2], hw2, hx2, hd2,
        by rw [hs2, hs1, List.length_cons]; omega⟩
    | assign i x => simp [Op.is_push] at ho


/-! ### Which constructor runs -/

theorem copy_ctor_default (m : Mem α) (t : vector) :
    vector.copy_ctor 1024 m t = vector.user_copy_ctor 1024 m t := by
  simp [vector.copy_ctor, vector.default_reserve_size]

theorem move_ctor_default (m : Mem α) (t : vector) :
    vector.move_ctor 1024 m t = vector.user_move_ctor 1024 m t := by
  simp [vector.move_ctor, vector.default_reserve_size]

theorem copy_ctor_other {N : Nat} (h : N ≠ 1024) (m : Mem α) (t : vector) :
    vector.copy_ctor N m t = some (vector.implicit_copy_ctor N m t) := by
  simp [vector.copy_ctor, vector.default_reserve_size, h]

theorem move_ctor_other {N : Nat} (h : N ≠ 1024) (m : Mem α) (t : vector) :
    vector.move_ctor N m t = some ((vector.implicit_copy_ctor N m t).1,
      (vector.implicit_copy_ctor N m t).2, t) := by
  simp [vector.move_ctor, vector.default_reserve_size, h]

theorem block_append_ne (m : Mem α) (e : Option (Block α)) {c : Nat} (h : c ≠ m.length + 1) :
    block (m ++ [e]) c = block m c := by
  cases c with
  | zero => rfl
  | succ j =>
    rcases Nat.lt_or_ge j m.length with hlt | hge
    · simp [block, List.getElem?_append_left hlt]
    · have h2 : (m ++ [e]).length ≤ j := by simp; omega
      simp [block, List.getElem?_eq_none h2, List.getElem?_eq_none hge]

theorem implicit_block_ne (N : Nat) (m : Mem α) (t : vector) {c : Nat} (h : c ≠ m.length + 1) :
    block (vector.implicit_copy_ctor N m t).1 c = block m c :=
  block_append_ne m _ h

theorem implicit_holds {N : Nat} {m : Mem α} {t : vector} {xs : List α} (h : Holds m t xs) :
    Holds (vector.implicit_copy_ctor N m t).1 (vector.implicit_copy_ctor N m t).2 xs := by
  have hle := h.addr_le
  exact ⟨h.size_eq, h.off_zero, by
    show ∃ blk, block _ t._m_overflow_arr.base = some blk ∧ _
    rw [implicit_block_ne N m t (by omega)]
    exact h.cells⟩

/-! ### A vector holding exactly as many elements as its array member has cells -/

theorem push_back_all_eq_run (xs : List α) (m : Mem α) (v : vector) :
    push_back_all m v xs = run m v (xs.map Op.push_back) := by
  induction xs generalizing m v with
  | nil => rfl
  | cons x rest ih =>
    simp only [push_back_all, List.map_cons, run, Op.apply]
    cases h : v.push_back m x with
    | none => rfl
    | some s => simp [ih]

theorem doubling_full {N : Nat} (hN : 1 ≤ N) {v : vector} (hd : Doubling N v)
    (hs : v._m_size = N) (hr : v._m_size < v._m_capacity) :
    v._m_capacity = 2 * N ∧ v._m_overflow_arr ≠ v.reserve_ptr := by
  rcases hd with ⟨hcap, _⟩ | ⟨j, hcap, hle, ho⟩
  · omega
  · refine ⟨?_, ho⟩
    cases j with
    | zero => rw [hcap]; ring
    | succ k =>
      have h1 : N * 2 ^ (k + 1) = 2 * (N * 2 ^ k) := by ring
      have h2 : N ≤ N * 2 ^ k := Nat.le_mul_of_pos_right N (Nat.pow_pos (by decide))
      omega

theorem full_push_state {N : Nat} (hN : 1 ≤ N) (m0 : Mem α) (xs : List α)
    (hlen : xs.length = N) :
    ∃ m A, push_back_all (vector.default_ctor N m0).1 (vector.default_ctor N m0).2 xs
        = some (m, A) ∧ WF N m A ∧ Holds m A xs ∧ A._m_size = N ∧ A._m_capacity = 2 * N ∧
      A._m_overflow_arr ≠ A.reserve_ptr := by
  obtain ⟨hw0, hx0⟩ := default_ctor_spec hN m0
  obtain ⟨m, A, h, hw, hx⟩ := push_back_all_spec xs hw0 hx0
  rw [List.nil_append] at hx
  have hd0 : Doubling N (vector.default_ctor N m0).2 := Or.inl ⟨rfl, rfl⟩
  obtain ⟨m1, A1, _, h1, _, _, hd, _⟩ :=
    run_push_doubling (xs.map Op.push_back) (by simp [Op.is_push]) hw0 hx0 hd0
  rw [← push_back_all_eq_run, h] at h1
  cases h1
  have hs : A._m_size = N := by rw [hx.size_eq, hlen]
  obtain ⟨hc, ho⟩ := doubling_full hN hd hs hw.room
  exact ⟨m, A, h, hw, hx, hs, hc, ho⟩

theorem overfull_push_back {m : Mem α} {v : vector} {blk : Block α} (x : α)
    (ho : v._m_overflow_arr.off = 0) (hb : block m v._m_overflow_arr.base = some blk)
    (hl : blk.length = v._m_size) (hc : v._m_size + 1 ≠ v._m_capacity) :
    vector._push_back m v x = none := by
  simp [vector._push_back, hc, store, Ptr.add, ho, hb, hl]

theorem overfull_push_front {m : Mem α} {v : vector} {blk : Block α} (x : α)
    (ho : v._m_overflow_arr.off = 0) (hb : block m v._m_overflow_arr.base = some blk)
    (hl : blk.length = v._m_size) (hc : v._m_size + 1 ≠ v._m_capacity) :
    vector._push_front m v x = none := by
  have hr : readCells m v._m_overflow_arr v._m_size = some (blk.take v._m_size) := by
    have := readCells_at (i := 0) (n := v._m_size) hb (by simpa using ho) (by omega)
    simpa using this
  have hw : writeCells m (v._m_overflow_arr.add 1) (blk.take v._m_size) = none := by
    simp [writeCells, Ptr.add, ho, hb, hl]
  simp only [vector._push_front, if_neg hc, Option.some_bind, memmove, hr, hw, Option.none_bind]

theorem user_copy_full {N : Nat} {m : Mem α} {A : vector} {xs : List α} (hx : Holds m A xs)
    (hs : A._m_size = N) :
    vector.user_copy_ctor N m A = some (setBlock (vector.storage N m).1 (m.length + 1)
        (some (xs.map some)), ⟨m.length + 1, ⟨m.length + 1, 0⟩, A._m_capacity, N⟩) ∧
    block (setBlock (vector.storage N m).1 (m.length + 1) (some (xs.map some))) (m.length + 1)
      = some (xs.map some) := by
  obtain ⟨blk, hb, ht⟩ := hx.cells
  have hlen : xs.length = N := by rw [← hx.size_eq, hs]
  have hcells : blk.take A._m_size ++ (List.replicate N none).drop A._m_size = xs.map some := by
    rw [hs, ← hlen, ht]
    simp
  have h := copy_ctor_small (N := N) (by omega) hx hb
  rw [hcells, hs] at h
  exact ⟨h, block_setBlock_self _ _ (by omega) (by rw [storage_length])⟩

theorem user_move_full {N : Nat} {m : Mem α} {A : vector} {xs : List α} (hx : Holds m A xs)
    (hs : A._m_size = N) :
    vector.user_move_ctor N m A = some (setBlock (vector.storage N m).1 (m.length + 1)
        (some (xs.map some)), ⟨m.length + 1, ⟨m.length + 1, 0⟩, A._m_capacity, N⟩, A) := by
  obtain ⟨blk, hb, ht⟩ := hx.cells
  have hlen : xs.length = N := by rw [← hx.size_eq, hs]
  have hcells : blk.take A._m_size ++ (List.replicate N none).drop A._m_size = xs.map some := by
    rw [hs, ← hlen, ht]
    simp
  have h := move_ctor_small (N := N) (by omega) hx hb
  rw [hcells, hs] at h
  exact h


/-! ### Reversing a vector of exactly as many elements as the array member has cells -/

theorem hand_over_full {N : Nat} {m : Mem α} {t : vector} {ys : List α} (hx : Holds m t ys)
    (hs : t._m_size = N) (hr : ∃ r, block m t._m_reserve_arr = some r) :
    ∃ m3, ((vector.user_move_ctor N m t).bind fun r =>
        (vector.destroy r.1 r.2.2).bind fun m3 => some (m3, r.2.1)) =
        some (m3, ⟨m.length + 1, ⟨m.length + 1, 0⟩, t._m_capacity, N⟩) ∧
      block m3 (m.length + 1) = some (ys.map some) ∧ m3.length = m.length + 1 := by
  obtain ⟨blk, hb, _⟩ := hx.cells
  obtain ⟨r, hr⟩ := hr
  have hbase : t._m_overflow_arr.base ≠ m.length + 1 := by
    have := (block_pos_le hb).2; omega
  have hrbase : t._m_reserve_arr ≠ m.length + 1 := by
    have := (block_pos_le hr).2; omega
  have hmv := user_move_full (N := N) hx hs
  have hself : block (setBlock (vector.storage N m).1 (m.length + 1) (some (ys.map some)))
      (m.length + 1) = some (ys.map some) :=
    block_setBlock_self _ _ (by omega) (by rw [storage_length])
  have hold : ∀ c, c ≠ m.length + 1 →
      block (setBlock (vector.storage N m).1 (m.length + 1) (some (ys.map some))) c =
        block m c := fun c hc => by
    rw [block_setBlock_ne _ _ hc, storage_block_ne N m hc]
  obtain ⟨m3, hdes, hl3, hf3⟩ := destroy_spec
    (m := setBlock (vector.storage N m).1 (m.length + 1) (some (ys.map some))) (t := t)
    hx.off_zero ⟨r, by rw [hold _ hrbase]; exact hr⟩ ⟨blk, by rw [hold _ hbase]; exact hb⟩
  refine ⟨m3, by simp [hmv, hdes], ?_, by rw [hl3, length_setBlock, storage_length]⟩
  rw [hf3 _ (Ne.symm hbase) (Ne.symm hrbase)]
  exact hself

theorem holds_of_cells {m : Mem α} {v : vector} {ys : List α}
    (ho : v._m_overflow_arr.off = 0) (hs : v._m_size = ys.length)
    (hb : block m v._m_overflow_arr.base = some (ys.map some)) : Holds m v ys :=
  ⟨hs, ho, ⟨_, hb, by simp⟩⟩

theorem reverse_full {N : Nat} (hN : 2 ≤ N) {m : Mem α} {v : vector} {xs : List α}
    {fuel : Nat} (hf : xs.length < fuel) (hx : Holds m v xs) (hlen : xs.length = N) :
    ∃ m1 r, vector.reverse N fuel m v = some (m1, r) ∧ Holds m1 r xs.reverse ∧
      r._m_size = N ∧ r._m_capacity = 2 * N ∧ r._m_overflow_arr = r.reserve_ptr ∧
      block m1 r._m_overflow_arr.base = some (xs.reverse.map some) ∧
      (∀ x, vector._push_front m1 r x = none) ∧ ∀ x, vector._push_back m1 r x = none := by
  obtain ⟨hw0, ht0⟩ := default_ctor_spec (N := N) (by omega) m
  have hvle := hx.addr_le
  have hvne : v._m_overflow_arr.base ≠ m.length + 1 := by omega
  have hv0 : Holds (vector.default_ctor N m).1 v xs := hx.frame (default_ctor_block_ne N m hvne)
  have hp : v.rbegin._m_ptr = ⟨v._m_overflow_arr.base, (xs.length : Int) - 1⟩ := by
    simp [vector.rbegin, vector.end_, random_access_iter.minus, random_access_iter.from_ptr,
      random_access_iter._ctor_item, Ptr.add, Ptr.sub, hx.off_zero, hx.size_eq]
  obtain ⟨m1, t1, hloop, hw1, ht1, _, hall⟩ :=
    reverse_loop_spec (N := N) xs.length fuel (vector.default_ctor N m).1
      (vector.default_ctor N m).2 [] v.rbegin hf le_rfl hp hv0 hw0 ht0 hvne
  rw [List.nil_append, List.take_length] at ht1
  rw [List.take_length] at hall
  obtain ⟨m1', A, hA, _, _, hAs, hAc, _⟩ :=
    full_push_state (N := N) (by omega) m xs.reverse (by simpa using hlen)
  rw [hall] at hA
  cases hA
  have hrl : xs.reverse.length = N := by simpa using hlen
  obtain ⟨r1, hr1, _⟩ := hw1.reserve_live
  obtain ⟨m3, h3, hb3, hl3⟩ := hand_over_full (N := N) ht1 hAs ⟨r1, hr1⟩
  have hx3 : Holds m3 ⟨m1.length + 1, ⟨m1.length + 1, 0⟩, t1._m_capacity, N⟩ xs.reverse :=
    holds_of_cells rfl hrl.symm hb3
  obtain ⟨m5, h5, hb5, _⟩ := hand_over_full (N := N) hx3 rfl ⟨_, hb3⟩
  have hc : vector._create_reverse_vector N fuel m v =
      some (m3, ⟨m1.length + 1, ⟨m1.length + 1, 0⟩, t1._m_capacity, N⟩) := by
    simp only [vector._create_reverse_vector, hloop, Option.some_bind]
    exact h3
  have hrev : vector.reverse N fuel m v =
      some (m5, ⟨m3.length + 1, ⟨m3.length + 1, 0⟩, t1._m_capacity, N⟩) := by
    simp only [vector.reverse, hc, Option.some_bind]
    exact h5
  have hlen5 : (xs.reverse.map some).length = N := by simpa using hlen
  refine ⟨m5, _, hrev, holds_of_cells rfl hrl.symm hb5, rfl, hAc, rfl, hb5,
    fun x => overfull_push_front x rfl hb5 hlen5 ?_, fun x => overfull_push_back x rfl hb5 hlen5 ?_⟩
  · show N + 1 ≠ t1._m_capacity
    omega
  · show N + 1 ≠ t1._m_capacity
    omega


/-! ### The copy and the move destination of a vector of exactly `ReserveSize` elements -/

theorem copy_full_state {N : Nat} (hN : 2 ≤ N) (m0 : Mem α) (xs : List α)
    (hlen : xs.length = N) :
    ∃ m A m1 B, push_back_all (vector.default_ctor N m0).1 (vector.default_ctor N m0).2 xs
        = some (m, A) ∧ Holds m A xs ∧ A._m_overflow_arr ≠ A.reserve_ptr ∧
      vector.user_copy_ctor N m A = some (m1, B) ∧ Holds m1 B xs ∧ Holds m1 A xs ∧
      B._m_size = N ∧ B._m_capacity = 2 * N ∧ B._m_overflow_arr = B.reserve_ptr ∧
      B._m_overflow_arr.base ≠ A._m_overflow_arr.base ∧
      block m1 B._m_overflow_arr.base = some (xs.map some) ∧
      (∀ x, vector._push_back m1 B x = none) ∧ ∀ x, vector._push_front m1 B x = none := by
  obtain ⟨m, A, hA, _, hx, hs, hc, ho⟩ := full_push_state (N := N) (by omega) m0 xs hlen
  obtain ⟨hcp, hb⟩ := user_copy_full hx hs
  obtain ⟨_, _, hframe⟩ := copy_ctor_frame hcp
  have hle := hx.addr_le
  have hl : (xs.map some).length = N := by simpa using hlen
  refine ⟨m, A, _, _, hA, hx, ho, hcp, holds_of_cells rfl hlen.symm hb,
    hx.frame (hframe _ hle), rfl, hc, rfl, ?_, hb,
    fun x => overfull_push_back x rfl hb hl ?_, fun x => overfull_push_front x rfl hb hl ?_⟩
  · show m.length + 1 ≠ A._m_overflow_arr.base
    omega
  · show N + 1 ≠ A._m_capacity
    omega
  · show N + 1 ≠ A._m_capacity
    omega

theorem move_full_state {N : Nat} (hN : 2 ≤ N) (m0 : Mem α) (xs : List α)
    (hlen : xs.length = N) :
    ∃ m A m1 B, push_back_all (vector.default_ctor N m0).1 (vector.default_ctor N m0).2 xs
        = some (m, A) ∧ Holds m A xs ∧ A._m_overflow_arr ≠ A.reserve_ptr ∧
      vector.user_move_ctor N m A = some (m1, B, A) ∧ Holds m1 B xs ∧
      B._m_size = N ∧ B._m_capacity = 2 * N ∧ B._m_overflow_arr = B.reserve_ptr ∧
      B._m_overflow_arr.base ≠ A._m_overflow_arr.base ∧
      block m1 B._m_overflow_arr.base = some (xs.map some) ∧
      (∀ x, vector._push_back m1 B x = none) ∧ ∀ x, vector._push_front m1 B x = none := by
  obtain ⟨m, A, hA, _, hx, hs, hc, ho⟩ := full_push_state (N := N) (by omega) m0 xs hlen
  have hmv := user_move_full hx hs
  have hb : block (setBlock (vector.storage N m).1 (m.length + 1) (some (xs.map some)))
      (m.length + 1) = some (xs.map some) :=
    block_setBlock_self _ _ (by omega) (by rw [storage_length])
  have hle := hx.addr_le
  have hl : (xs.map some).length = N := by simpa using hlen
  refine ⟨m, A, _, _, hA, hx, ho, hmv, holds_of_cells rfl hlen.symm hb, rfl, hc, rfl, ?_, hb,
    fun x => overfull_push_back x rfl hb hl ?_, fun x => overfull_push_front x rfl hb hl ?_⟩
  · show m.length + 1 ≠ A._m_overflow_arr.base
    omega
  · show N + 1 ≠ A._m_capacity
    omega
  · show N + 1 ≠ A._m_capacity
    omega

theorem add_vector_overfull {m : Mem α} {a w : vector} {ys : List α} (hw : Holds m w ys)
    (hpos : 0 < ys.length) (hp : ∀ x, vector._push_back m a x = none) (fuel : Nat) :
    vector._add_vector fuel m a w = none := by
  cases fuel with
  | zero => rfl
  | succ f =>
    have hne : w.begin.ne w.end_ = true := by
      have : ¬ ((0 : Int) = (ys.length : Int)) := by omega
      have h0 := hw.off_zero
      simp only [random_access_iter.ne, random_access_iter._equal, vector.begin, vector.end_,
        random_access_iter.from_ptr, random_access_iter._ctor_item, Ptr.add, hw.size_eq,
        Bool.not_eq_true', decide_eq_false_iff_not]
      intro e
      have e2 := congrArg Ptr.off e
      simp only at e2
      omega
    have hld : w.begin.deref m = some ys[0] := by
      have hp0 : w.begin._m_ptr = ⟨w._m_overflow_arr.base, ((0 : Nat) : Int)⟩ := by
        simp only [vector.begin, random_access_iter.from_ptr, random_access_iter._ctor_item]
        cases hq : w._m_overflow_arr with
        | mk b o =>
          have := hw.off_zero
          rw [hq] at this
          simp only at this
          simp [this]
      rw [random_access_iter.deref, hw.load hpos hp0, List.getElem?_eq_getElem hpos]
    simp [vector._add_vector, vector._add_vector_loop, hne, hld, vector.push_back, hp]

theorem read_replicate {m : Mem α} {v : vector} {n : Nat} {a : α}
    (h : Holds m v (List.replicate n a)) (i : Nat) (hi : i < n) : v._at m i = some a := by
  rw [h.read i (by simpa using hi)]
  simp [List.getElem?_replicate, hi]


/-! ### Cells past the end of the active storage, and the moved-from source -/

theorem read_past_end {m : Mem α} {v : vector} {blk : Block α} {i : Nat}
    (ho : v._m_overflow_arr.off = 0) (hb : block m v._m_overflow_arr.base = some blk)
    (hi : blk.length ≤ i) : v._at m i = none := by
  have hl : load m (v._m_overflow_arr.add i) = (blk[i]?).join :=
    load_at (p := v._m_overflow_arr.add i) hb (by simp [Ptr.add, ho])
  rw [vector._at, vector._at_unsafe, hl, List.getElem?_eq_none hi]
  rfl

theorem write_past_end {m : Mem α} {v : vector} {blk : Block α} {i : Nat} (x : α)
    (ho : v._m_overflow_arr.off = 0) (hb : block m v._m_overflow_arr.base = some blk)
    (hi : blk.length ≤ i) : v.assign_at m i x = none := by
  have : ¬ i < blk.length := by omega
  simp [vector.assign_at, store, Ptr.add, ho, hb, this]

theorem doubling_one_more {N : Nat} (hN : 2 ≤ N) {v : vector} (hd : Doubling N v)
    (hs : v._m_size = N + 1) (hr : v._m_size < v._m_capacity) : v._m_capacity = 2 * N := by
  rcases hd with ⟨hcap, _⟩ | ⟨j, hcap, hle, _⟩
  · omega
  · cases j with
    | zero => rw [hcap]; ring
    | succ k =>
      have h1 : N * 2 ^ (k + 1) = 2 * (N * 2 ^ k) := by ring
      have h2 : N ≤ N * 2 ^ k := Nat.le_mul_of_pos_right N (Nat.pow_pos (by decide))
      omega

theorem moved_from_state {N : Nat} (hN : 2 ≤ N) (m0 : Mem α) (xs : List α)
    (hlen : xs.length = N + 1) :
    ∃ m A m1 B A1, push_back_all (vector.default_ctor N m0).1 (vector.default_ctor N m0).2 xs
        = some (m, A) ∧ vector.user_move_ctor N m A = some (m1, B, A1) ∧
      A1._m_size = N + 1 ∧ A1._m_capacity = 2 * N ∧ A1._m_overflow_arr = A1.reserve_ptr ∧
      ∃ r, block m1 A1._m_overflow_arr.base = some r ∧ r.length = N := by
  obtain ⟨hw0, hx0⟩ := default_ctor_spec (N := N) (by omega) m0
  obtain ⟨m, A, hA, hw, hx⟩ := push_back_all_spec xs hw0 hx0
  rw [List.nil_append] at hx
  have hd0 : Doubling N (vector.default_ctor N m0).2 := Or.inl ⟨rfl, rfl⟩
  obtain ⟨m', A', _, h1, _, _, hd, _⟩ :=
    run_push_doubling (xs.map Op.push_back) (by simp [Op.is_push]) hw0 hx0 hd0
  rw [← push_back_all_eq_run, hA] at h1
  cases h1
  have hs : A._m_size = N + 1 := by rw [hx.size_eq, hlen]
  have hc := doubling_one_more hN hd hs hw.room
  obtain ⟨r, hr, hrl⟩ := hw.reserve_live
  have hrne : A._m_reserve_arr ≠ m.length + 1 := by
    have := (block_pos_le hr).2; omega
  exact ⟨m, A, (vector.storage N m).1,
    ⟨m.length + 1, A._m_overflow_arr, A._m_capacity, A._m_size⟩,
    { A with _m_overflow_arr := A.reserve_ptr }, hA, move_ctor_big N m A (by omega), hs, hc,
    rfl, r, by
      show block (vector.storage N m).1 A._m_reserve_arr = some r
      rw [storage_block_ne N m hrne]; exact hr, hrl⟩

theorem copy_fields {N : Nat} {m m1 : Mem α} {t b : vector}
    (h : vector.copy_ctor N m t = some (m1, b)) :
    b._m_size = t._m_size ∧ b._m_capacity = t._m_capacity := by
  by_cases hN : N = 1024
  · subst hN
    rw [copy_ctor_default] at h
    exact copy_ctor_fields h
  · rw [copy_ctor_other hN] at h
    cases h
    exact ⟨rfl, rfl⟩

theorem move_fields {N : Nat} {m m1 : Mem α} {t b t1 : vector}
    (h : vector.move_ctor N m t = some (m1, b, t1)) :
    b._m_size = t._m_size ∧ b._m_capacity = t._m_capacity ∧
      t1._m_size = t._m_size ∧ t1._m_capacity = t._m_capacity := by
  by_cases hN : N = 1024
  · subst hN
    rw [move_ctor_default] at h
    exact move_ctor_fields h
  · rw [move_ctor_other hN] at h
    cases h
    exact ⟨rfl, rfl, rfl, rfl⟩

/-- The two members of every reachable vector satisfy `_m_size < _m_capacity` (`N ≥ 1`),
whatever the storage behind them is. -/
theorem reachable_room {N : Nat} (hN : 1 ≤ N) {v : vector} (h : Reachable α N v) :
    v._m_size < v._m_capacity := by
  induction h with
  | default_ctor m =>
    show 0 < N
    omega
  | push_back m x m1 v1 _ hp ih => exact push_back_room hp ih
  | push_front m x m1 v1 _ hp ih => exact push_front_room hp ih
  | plus_assign b fuel m m1 a1 r _ hp ih =>
    simp only [vector.operator_plus_assign, vector._add_vector] at hp
    rcases Option.bind_eq_some.1 hp with ⟨⟨m2, a2⟩, hl, hp⟩
    cases hp
    exact add_loop_room fuel hl ih
  | plus b fuel m m1 a1 r _ hp ih =>
    simp only [vector.operator_plus, vector._add_vector] at hp
    rcases Option.bind_eq_some.1 hp with ⟨⟨m2, a2⟩, hl, hp⟩
    cases hp
    exact add_loop_room fuel hl ih
  | copy_ctor m m1 b _ hp ih =>
    obtain ⟨h1, h2⟩ := copy_fields hp
    omega
  | move_ctor m m1 b a1 _ hp ih =>
    obtain ⟨h1, h2, _, _⟩ := move_fields hp
    omega
  | moved_from m m1 b a1 _ hp ih =>
    obtain ⟨_, _, h1, h2⟩ := move_fields hp
    omega


/-! ### The claims -/

/-- C1: for every inline capacity `N ≥ 1` and every list of values appended with `push_back`
to a default-constructed vector, the run is defined, `size()` is the number of values and
`at(i)` is the `i`-th value appended, for every `i` below it. -/
theorem push_back_all_contents (N : Nat) (hN : 1 ≤ N) (m : Mem α) (xs : List α) :
    ∃ m1 v1, push_back_all (vector.default_ctor N m).1 (vector.default_ctor N m).2 xs
        = some (m1, v1) ∧
      v1.size = xs.length ∧ ∀ i, i < xs.length → v1._at m1 i = xs[i]? := by
  obtain ⟨hw, hx⟩ := default_ctor_spec hN m
  obtain ⟨m1, v1, h, _, hx1⟩ := push_back_all_spec xs hw hx
  rw [List.nil_append] at hx1
  exact ⟨m1, v1, h, hx1.size_eq, fun i hi => hx1.read i hi⟩

/-- Witness of C1: five values appended to a vector of inline capacity 4. -/
theorem push_back_all_contents_witness :
    1 ≤ 4 ∧ ∃ m1 v1, push_back_all (vector.default_ctor 4 ([] : Mem Nat)).1
        (vector.default_ctor 4 ([] : Mem Nat)).2 [1, 2, 3, 4, 5] = some (m1, v1) ∧
      v1.size = [1, 2, 3, 4, 5].length ∧
      ∀ i, i < [1, 2, 3, 4, 5].length → v1._at m1 i = [1, 2, 3, 4, 5][i]? :=
  ⟨by decide, push_back_all_contents 4 (by decide) [] [1, 2, 3, 4, 5]⟩

/-- C2, as stated, fails: with inline capacity 4, four appends (`n ≤ N`) are defined and leave
`size() == 4`, but the fourth one grew the vector: the active storage is no longer the array
member, and one more array object exists than right after construction. -/
theorem inline_limit_counterexample :
    [1, 2, 3, 4].length ≤ 4 ∧
    ∃ m1 v1, push_back_all (vector.default_ctor 4 ([] : Mem Nat)).1
        (vector.default_ctor 4 ([] : Mem Nat)).2 [1, 2, 3, 4] = some (m1, v1) ∧
      v1.size = 4 ∧ v1._m_overflow_arr ≠ v1.reserve_ptr ∧
      m1.length = (vector.default_ctor 4 ([] : Mem Nat)).1.length + 1 :=
  ⟨by decide, _, _, rfl, by decide, by decide, by decide⟩

/-- C2, amended: for every inline capacity `N ≥ 1` and every `n < N`, after `n` `push_back`
calls on a default-constructed vector the active storage is still the array member, no array
object has been created since construction, the capacity is still `N`, and `size() == n`. -/
theorem push_back_all_inline (N : Nat) (hN : 1 ≤ N) (m : Mem α) (xs : List α)
    (hn : xs.length < N) :
    ∃ m1 v1, push_back_all (vector.default_ctor N m).1 (vector.default_ctor N m).2 xs
        = some (m1, v1) ∧
      v1._m_overflow_arr = v1.reserve_ptr ∧ m1.length = (vector.default_ctor N m).1.length ∧
      v1.capacity = N ∧ v1.size = xs.length := by
  obtain ⟨hw, hx⟩ := default_ctor_spec hN m
  obtain ⟨m1, v1, h, _, hx1⟩ := push_back_all_spec xs hw hx
  rw [List.nil_append] at hx1
  obtain ⟨h1, h2, h3, h4⟩ := push_back_all_still xs (by simpa [default_ctor_eq] using hn) h
  refine ⟨m1, v1, h, ?_, h1, h3, hx1.size_eq⟩
  rw [h2]
  simp [vector.reserve_ptr, h4, default_ctor_eq]

/-- Witness of the amended C2: three values appended to a vector of inline capacity 4. -/
theorem push_back_all_inline_witness :
    1 ≤ 4 ∧ [1, 2, 3].length < 4 ∧
    ∃ m1 v1, push_back_all (vector.default_ctor 4 ([] : Mem Nat)).1
        (vector.default_ctor 4 ([] : Mem Nat)).2 [1, 2, 3] = some (m1, v1) ∧
      v1._m_overflow_arr = v1.reserve_ptr ∧
      m1.length = (vector.default_ctor 4 ([] : Mem Nat)).1.length ∧
      v1.capacity = 4 ∧ v1.size = [1, 2, 3].length :=
  ⟨by decide, by decide, push_back_all_inline 4 (by decide) [] [1, 2, 3] (by decide)⟩

/-- Under the storage invariant `push_front(x)` on a vector with contents `xs` is defined and
yields contents `x, xs` with size one more; and prepending `v_0, .., v_n` in turn to a
default-constructed vector (`N ≥ 1`) yields `at(i) == v_{n-i}` for every `i ≤ n`. -/
theorem push_front_contents (N : Nat) (hN : 1 ≤ N) (m : Mem α) (v : vector) (xs : List α)
    (x : α) (hw : WF N m v) (hx : Holds m v xs) :
    (∃ m1 v1, v.push_front m x = some (m1, v1) ∧ v1.size = xs.length + 1 ∧
      ∀ i, i < xs.length + 1 → v1._at m1 i = (x :: xs)[i]?) ∧
    ∀ (m0 : Mem α) (vs : List α),
      ∃ m1 v1, push_front_all (vector.default_ctor N m0).1 (vector.default_ctor N m0).2 vs
          = some (m1, v1) ∧
        v1.size = vs.length ∧ ∀ i, i < vs.length → v1._at m1 i = vs[vs.length - 1 - i]? := by
  constructor
  · obtain ⟨m1, v1, h, _, hx1⟩ := push_front_spec hw hx x
    exact ⟨m1, v1, h, by simpa using hx1.size_eq, fun i hi => hx1.read i (by simpa using hi)⟩
  · intro m0 vs
    obtain ⟨hw0, hx0⟩ := default_ctor_spec hN m0
    obtain ⟨m1, v1, h, _, hx1⟩ := push_front_all_spec vs hw0 hx0
    rw [List.append_nil] at hx1
    refine ⟨m1, v1, h, by simpa using hx1.size_eq, fun i hi => ?_⟩
    rw [hx1.read i (by simpa using hi), List.getElem?_reverse hi]

/-- C4, the code at a vector whose capacity exceeds its storage: with the default inline
capacity 1024, the copy `B` of a vector of exactly 1024 elements has size 1024 and those
elements, but capacity 2048 over its array member of 1024 cells; `push_front(5)` on it skips
growth and shifts the elements out of that array: it is undefined, no vector with contents
`5, x_0, .., x_1023` results. -/
theorem push_front_after_copy_undefined :
    ∃ m A m1 B, push_back_all (vector.default_ctor 1024 ([] : Mem Nat)).1
        (vector.default_ctor 1024 ([] : Mem Nat)).2 (List.replicate 1024 0) = some (m, A) ∧
      vector.copy_ctor 1024 m A = some (m1, B) ∧ B.size = 1024 ∧ B.capacity = 2048 ∧
      (∀ i, i < 1024 → B._at m1 i = some 0) ∧ B.push_front m1 5 = none := by
  obtain ⟨m, A, m1, B, hA, _, _, hcp, hB, _, hs, hc, _, _, _, _, hpf⟩ :=
    copy_full_state (N := 1024) (by decide) ([] : Mem Nat) (List.replicate 1024 0) (List.length_replicate 1024 0)
  exact ⟨m, A, m1, B, hA, by rw [copy_ctor_default]; exact hcp, hs, hc,
    fun i hi => read_replicate hB i hi, hpf 5⟩


/-- C3: for every vector `v` with contents `xs` (`N ≥ 1`, fuel above the size), `reverse()` is
defined and returns a vector `r` on storage of its own with `r.size() == n` and
`r.at(i) == x_{n-1-i}` for every `i < n` (so an empty `v` gives an empty `r`); `v` has the same
size and the same elements after the call as before. -/
theorem reverse_contents (N : Nat) (hN : 1 ≤ N) (fuel : Nat) (m : Mem α) (v : vector)
    (xs : List α) (hx : Holds m v xs) (hf : xs.length < fuel) :
    ∃ m1 r, v.reverse N fuel m = some (m1, r) ∧
      r.size = xs.length ∧ (∀ i, i < xs.length → r._at m1 i = xs[xs.length - 1 - i]?) ∧
      r._m_overflow_arr.base ≠ v._m_overflow_arr.base ∧
      v.size = xs.length ∧ (∀ i, i < xs.length → v._at m1 i = xs[i]?) ∧
      (∀ i, i < xs.length → v._at m i = xs[i]?) := by
  obtain ⟨m1, r, h, hr, hv, hne⟩ := reverse_spec hN hf hx
  refine ⟨m1, r, h, by simpa using hr.size_eq, fun i hi => ?_, hne, hx.size_eq,
    fun i hi => hv.read i hi, fun i hi => hx.read i hi⟩
  rw [hr.read i (by simpa using hi), List.getElem?_reverse hi]

/-- Witness of C3: the heap-backed vector `[1, 2, 3, 4]` of inline capacity 4. -/
theorem reverse_contents_witness :
    ∃ m1 r, vector.reverse 4 5
        [some [some 1, some 2, some 3, none],
         some [some 1, some 2, some 3, some 4, none, none, none, none]] ⟨1, ⟨2, 0⟩, 8, 4⟩
          = some (m1, r) ∧
      r.size = [1, 2, 3, 4].length ∧
      (∀ i, i < [1, 2, 3, 4].length → r._at m1 i = [1, 2, 3, 4][[1, 2, 3, 4].length - 1 - i]?) ∧
      r._m_overflow_arr.base ≠ 2 ∧
      vector.size ⟨1, ⟨2, 0⟩, 8, 4⟩ = [1, 2, 3, 4].length ∧
      (∀ i, i < [1, 2, 3, 4].length →
        vector._at m1 ⟨1, ⟨2, 0⟩, 8, 4⟩ i = [1, 2, 3, 4][i]?) ∧
      (∀ i, i < [1, 2, 3, 4].length →
        vector._at [some [some 1, some 2, some 3, none],
          some [some 1, some 2, some 3, some 4, none, none, none, none]] ⟨1, ⟨2, 0⟩, 8, 4⟩ i
          = [1, 2, 3, 4][i]?) :=
  reverse_contents 4 (by decide) 5
    [some [some 1, some 2, some 3, none],
     some [some 1, some 2, some 3, some 4, none, none, none, none]] ⟨1, ⟨2, 0⟩, 8, 4⟩
    [1, 2, 3, 4] ⟨rfl, rfl, ⟨_, rfl, rfl⟩⟩ (by decide)

/-- Under the storage invariant of the receiver: for two vectors `a` (contents `xs`) and `b`
(contents `ys`) with distinct active storage, `a += b` and `a + b` are defined (fuel above
`b.size()`), leave `a` with contents `xs` followed by `ys` and size `|xs| + |ys|`, leave the
contents of `b` as they were, and return the receiver in its state after the call. -/
theorem concat_contents (N fuel : Nat) (m : Mem α) (a b : vector) (xs ys : List α)
    (hw : WF N m a) (ha : Holds m a xs) (hb : Holds m b ys)
    (hsep : b._m_overflow_arr.base ≠ a._m_overflow_arr.base) (hf : ys.length < fuel) :
    (∃ m1 a1 r, a.operator_plus_assign fuel m b = some (m1, a1, r) ∧
      r = a1 ∧ a1._m_reserve_arr = a._m_reserve_arr ∧ a1.size = xs.length + ys.length ∧
      (∀ i, i < xs.length + ys.length → a1._at m1 i = (xs ++ ys)[i]?) ∧
      b.size = ys.length ∧ ∀ i, i < ys.length → b._at m1 i = ys[i]?) ∧
    (∃ m1 a1 r, a.operator_plus fuel m b = some (m1, a1, r) ∧
      r = a1 ∧ a1._m_reserve_arr = a._m_reserve_arr ∧ a1.size = xs.length + ys.length ∧
      (∀ i, i < xs.length + ys.length → a1._at m1 i = (xs ++ ys)[i]?) ∧
      b.size = ys.length ∧ ∀ i, i < ys.length → b._at m1 i = ys[i]?) := by
  obtain ⟨m1, a1, h, _, ha1, hb1, s⟩ := add_vector_spec hf hw ha hb hsep
  constructor
  · exact ⟨m1, a1, a1, by simp [vector.operator_plus_assign, h], rfl, s.reserve_eq,
      by simpa using ha1.size_eq, fun i hi => ha1.read i (by simpa using hi), hb.size_eq,
      fun i hi => hb1.read i hi⟩
  · exact ⟨m1, a1, a1, by simp [vector.operator_plus, h], rfl, s.reserve_eq,
      by simpa using ha1.size_eq, fun i hi => ha1.read i (by simpa using hi), hb.size_eq,
      fun i hi => hb1.read i hi⟩

/-- C5, the code at a receiver whose capacity exceeds its storage: with the default inline
capacity 1024, `A` holds exactly 1024 elements and `B` is its copy (size 1024, the same
elements, storage of its own, capacity 2048 over 1024 cells); the first `push_back` of `B += A`
and of `B + A` writes outside the array member of `B`: both are undefined, whatever the fuel. -/
theorem concat_after_copy_undefined :
    ∃ m A m1 B, push_back_all (vector.default_ctor 1024 ([] : Mem Nat)).1
        (vector.default_ctor 1024 ([] : Mem Nat)).2 (List.replicate 1024 0) = some (m, A) ∧
      vector.copy_ctor 1024 m A = some (m1, B) ∧ B.size = 1024 ∧
      (∀ i, i < 1024 → B._at m1 i = some 0) ∧ (∀ i, i < 1024 → A._at m1 i = some 0) ∧
      B._m_overflow_arr.base ≠ A._m_overflow_arr.base ∧ B.push_back m1 0 = none ∧
      (∀ fuel, B.operator_plus_assign fuel m1 A = none) ∧
      ∀ fuel, B.operator_plus fuel m1 A = none := by
  obtain ⟨m, A, m1, B, hA, _, _, hcp, hB, hA1, hs, _, _, hne, _, hpb, _⟩ :=
    copy_full_state (N := 1024) (by decide) ([] : Mem Nat) (List.replicate 1024 0)
      (List.length_replicate 1024 0)
  have hadd : ∀ fuel, vector._add_vector fuel m1 B A = none :=
    add_vector_overfull hA1 (by rw [List.length_replicate]; decide) hpb
  exact ⟨m, A, m1, B, hA, by rw [copy_ctor_default]; exact hcp, hs,
    fun i hi => read_replicate hB i hi, fun i hi => read_replicate hA1 i hi, hne, hpb 0,
    fun fuel => by simp [vector.operator_plus_assign, hadd fuel],
    fun fuel => by simp [vector.operator_plus, hadd fuel]⟩

/-- Where the user-provided copy constructor runs: for every vector `A` reached from a
default-constructed vector (`N ≥ 1`) by `push_back` and `push_front` calls, the construction of
`B` from `A` is defined, `B.size() == A.size()` and `B.at(i) == A.at(i)` for every
`i < A.size()`; `B` uses its own array member when `A.size() ≤ N`, and otherwise an array object
that did not exist before the copy, is not `B`'s array member, and has `A.capacity()` cells. -/
theorem user_copy_ctor_contents (N : Nat) (hN : 1 ≤ N) (m : Mem α) (ops : List (Op α))
    (hp : ∀ o ∈ ops, o.is_push = true) :
    ∃ m1 A, run (vector.default_ctor N m).1 (vector.default_ctor N m).2 ops = some (m1, A) ∧
      ∃ m2 B, vector.user_copy_ctor N m1 A = some (m2, B) ∧ B.size = A.size ∧
        (∀ i, i < A.size → ∃ x, A._at m1 i = some x ∧ B._at m2 i = some x) ∧
        (A.size ≤ N → B._m_overflow_arr = B.reserve_ptr) ∧
        (N < A.size → B._m_overflow_arr ≠ B.reserve_ptr ∧ B._m_overflow_arr.off = 0 ∧
          block m1 B._m_overflow_arr.base = none ∧
          ∃ blk, block m2 B._m_overflow_arr.base = some blk ∧ blk.length = A.capacity) := by
  obtain ⟨hw0, hx0⟩ := default_ctor_spec hN m
  obtain ⟨m1, A, zs, hrun, hw, hx⟩ := run_push_spec ops hp hw0 hx0
  obtain ⟨blk, hb, ht⟩ := hx.cells
  obtain ⟨hle, _⟩ := hx.le_length hb
  have hsz := hx.size_eq
  have hroom := hw.room
  refine ⟨m1, A, hrun, ?_⟩
  have hread : ∀ (m2 : Mem α) (B : vector), Holds m2 B zs → ∀ i, i < A.size →
      ∃ x, A._at m1 i = some x ∧ B._at m2 i = some x := by
    intro m2 B hB i hi
    have hi1 : i < zs.length := by rw [← hsz]; exact hi
    exact ⟨zs[i], by rw [hx.read i hi1, List.getElem?_eq_getElem hi1],
      by rw [hB.read i hi1, List.getElem?_eq_getElem hi1]⟩
  rcases Nat.lt_or_ge N A._m_size with hbig | hsmall
  · have hself : block (setBlock (new_arr (vector.storage N m1).1 A._m_capacity).1
        (m1.length + 2)
        (some (blk.take A._m_size ++ (List.replicate A._m_capacity none).drop A._m_size)))
        (m1.length + 2) =
        some (blk.take A._m_size ++ (List.replicate A._m_capacity none).drop A._m_size) :=
      block_setBlock_self _ _ (by omega) (by rw [length_new_arr, storage_length])
    refine ⟨_, _, copy_ctor_big hbig (by omega) hx hb, rfl, ?_, fun h => ?_, fun _ => ?_⟩
    · refine hread _ _ ⟨hsz, rfl, ⟨_, hself, ?_⟩⟩
      rw [List.take_append_of_le_length (by simp; omega), hsz, List.take_take, min_self]
      exact ht
    · exact absurd h (by show ¬ A._m_size ≤ N; omega)
    · refine ⟨by simp [vector.reserve_ptr], rfl, ?_, ⟨_, hself, ?_⟩⟩
      · show block m1 (m1.length + 2) = none
        cases hq : block m1 (m1.length + 2) with
        | none => rfl
        | some q => have := (block_pos_le hq).2; omega
      · simp only [List.length_append, List.length_take, List.length_drop,
          List.length_replicate, vector.capacity, vector._capacity]
        omega
  · have hself : block (setBlock (vector.storage N m1).1 (m1.length + 1)
        (some (blk.take A._m_size ++ (List.replicate N none).drop A._m_size))) (m1.length + 1) =
        some (blk.take A._m_size ++ (List.replicate N none).drop A._m_size) :=
      block_setBlock_self _ _ (by omega) (by rw [storage_length])
    refine ⟨_, _, copy_ctor_small hsmall hx hb, rfl, ?_, fun _ => rfl, fun h => ?_⟩
    · refine hread _ _ ⟨hsz, rfl, ⟨_, hself, ?_⟩⟩
      rw [List.take_append_of_le_length (by simp; omega), hsz, List.take_take, min_self]
      exact ht
    · exact absurd h (by show ¬ N < A._m_size; omega)

/-- C6, the code at inline capacity 4: copy construction of a `vector<__Type, 4>` is the
memberwise copy.  The copy of the inline-backed `[1, 2, 3]` has size 3 and its active storage is
the array member of the source, not its own; the copy of the heap-backed `[1, 2, 3, 4, 5]` has
size 5 and its active storage is the heap block of the source: no block is allocated (the only
new array object is the array member of the copy). -/
theorem copy_shares_storage :
    ((push_back_all (vector.default_ctor 4 ([] : Mem Nat)).1
        (vector.default_ctor 4 ([] : Mem Nat)).2 [1, 2, 3]).bind fun s =>
      (vector.copy_ctor 4 s.1 s.2).map fun t =>
        (t.2.size, decide (t.2._m_overflow_arr = s.2._m_overflow_arr),
         decide (t.2._m_overflow_arr = t.2.reserve_ptr),
         decide (s.2._m_overflow_arr = s.2.reserve_ptr)))
      = some (3, true, false, true) ∧
    ((push_back_all (vector.default_ctor 4 ([] : Mem Nat)).1
        (vector.default_ctor 4 ([] : Mem Nat)).2 [1, 2, 3, 4, 5]).bind fun s =>
      (vector.copy_ctor 4 s.1 s.2).map fun t =>
        (t.2.size, decide (t.2._m_overflow_arr = s.2._m_overflow_arr),
         decide (s.2._m_overflow_arr = s.2.reserve_ptr),
         decide (t.1.length = s.1.length + 1)))
      = some (5, true, false, true) := by
  refine ⟨?_, ?_⟩ <;> decide

/-- Where the user-provided copy constructor runs: for every vector `A` with contents `xs` and
`B` constructed from `A`, every sequence of `push_back`, `push_front` and indexed writes applied
to `B` that is defined leaves `A` with the same size and the same elements, and the active
storage of `B` is never the active storage of `A`. -/
theorem user_copy_independent (N : Nat) (m : Mem α) (A : vector) (xs : List α) (hx : Holds m A xs)
    (m1 : Mem α) (B : vector) (hc : vector.user_copy_ctor N m A = some (m1, B))
    (ops : List (Op α)) (m2 : Mem α) (B2 : vector) (hr : run m1 B ops = some (m2, B2)) :
    A.size = xs.length ∧ (∀ i, i < xs.length → A._at m2 i = xs[i]?) ∧
      (∀ i, A._at m2 i = A._at m i) ∧
      B._m_overflow_arr.base ≠ A._m_overflow_arr.base ∧
      B2._m_overflow_arr.base ≠ A._m_overflow_arr.base := by
  obtain ⟨hfresh, hlen, hframe⟩ := copy_ctor_frame hc
  have hle := hx.addr_le
  have hne : A._m_overflow_arr.base ≠ B._m_overflow_arr.base := by omega
  have hx1 : Holds m1 A xs := hx.frame (hframe _ hle)
  have s := run_step ops hr
  obtain ⟨hx2, hne2⟩ := hx1.step s hne
  have hblk : block m2 A._m_overflow_arr.base = block m A._m_overflow_arr.base := by
    rw [s.frame _ (by omega) hne, hframe _ hle]
  refine ⟨hx.size_eq, fun i hi => hx2.read i hi, fun i => ?_, Ne.symm hne, Ne.symm hne2⟩
  simp only [vector._at, vector._at_unsafe, load, Ptr.add, hblk]

/-- C7, the code at inline capacity 4: `B` is copy constructed from `A = [1, 2, 3]` (the
memberwise copy, so `B` reads and writes the storage of `A`); after the indexed write
`B[0] = 7`, `A.at(0)` is 7 instead of 1. -/
theorem copy_write_changes_source :
    ((push_back_all (vector.default_ctor 4 ([] : Mem Nat)).1
        (vector.default_ctor 4 ([] : Mem Nat)).2 [1, 2, 3]).bind fun s =>
      (vector.copy_ctor 4 s.1 s.2).bind fun t =>
      (run t.1 t.2 [Op.assign 0 7]).map fun u =>
        (s.2._at s.1 0, s.2._at u.1 0, u.2._at u.1 0,
         decide (t.2._m_overflow_arr = s.2._m_overflow_arr)))
      = some (some 1, some 7, some 7, true) := by
  decide

/-- C8: for every vector `A` with contents `xs`, inline-backed or heap-backed, move
construction of `B` from `A` is defined and gives `B.size() == |xs|` and `B.at(i) == xs_i` for
every `i < |xs|`. -/
theorem move_ctor_contents (N : Nat) (m : Mem α) (A : vector) (xs : List α)
    (hx : Holds m A xs) :
    ∃ m1 B A1, vector.move_ctor N m A = some (m1, B, A1) ∧ B.size = xs.length ∧
      ∀ i, i < xs.length → B._at m1 i = xs[i]? := by
  by_cases hN : N = 1024
  · subst hN
    obtain ⟨m1, B, A1, h, hB, _⟩ := move_ctor_holds (N := 1024) hx
    exact ⟨m1, B, A1, by rw [move_ctor_default]; exact h, hB.size_eq,
      fun i hi => hB.read i hi⟩
  · have hB := implicit_holds (N := N) hx
    exact ⟨_, _, _, move_ctor_other hN m A, hB.size_eq, fun i hi => hB.read i hi⟩

/-- Witness of C8: `A = [1, 2, 3, 4, 5]` with inline capacity 4 (heap-backed, capacity 8). -/
theorem move_ctor_contents_witness :
    ∃ m1 B A1, vector.move_ctor 4
        [some [some 1, some 2, some 3, none],
         some [some 1, some 2, some 3, some 4, some 5, none, none, none]] ⟨1, ⟨2, 0⟩, 8, 5⟩
          = some (m1, B, A1) ∧ B.size = [1, 2, 3, 4, 5].length ∧
      ∀ i, i < [1, 2, 3, 4, 5].length → B._at m1 i = [1, 2, 3, 4, 5][i]? :=
  move_ctor_contents 4
    [some [some 1, some 2, some 3, none],
     some [some 1, some 2, some 3, some 4, some 5, none, none, none]] ⟨1, ⟨2, 0⟩, 8, 5⟩
    [1, 2, 3, 4, 5] ⟨rfl, rfl, ⟨_, rfl, rfl⟩⟩

/-- C9, the code at the claim's own scenario and where `_move` runs: `A = [1, 2, 3, 4, 5]` with
inline capacity 4 is heap-backed with capacity 8; after `B` is move constructed from it (the
memberwise copy) `A.size()` is still 5, `A` is as it was.  With the default inline capacity
1024 and 1025 elements, `_move` makes the array member the active storage of `A` and leaves
`A.size()` at 1025. -/
theorem moved_from_keeps_size :
    ((push_back_all (vector.default_ctor 4 ([] : Mem Nat)).1
        (vector.default_ctor 4 ([] : Mem Nat)).2 [1, 2, 3, 4, 5]).bind (fun s =>
      (vector.move_ctor 4 s.1 s.2).map fun r =>
        (s.2.capacity, decide (s.2._m_overflow_arr = s.2.reserve_ptr),
         r.2.2.size, r.2.2.capacity, decide (r.2.2 = s.2)))
      = some (8, false, 5, 8, true)) ∧
    ∃ m A m1 B A1, push_back_all (vector.default_ctor 1024 ([] : Mem Nat)).1
        (vector.default_ctor 1024 ([] : Mem Nat)).2 (List.replicate 1025 0) = some (m, A) ∧
      vector.move_ctor 1024 m A = some (m1, B, A1) ∧ A1.size = 1025 ∧
      A1._m_overflow_arr = A1.reserve_ptr := by
  refine ⟨by decide, ?_⟩
  obtain ⟨hw0, hx0⟩ := default_ctor_spec (N := 1024) (by decide) ([] : Mem Nat)
  obtain ⟨m, A, hA, _, hx⟩ := push_back_all_spec (List.replicate 1025 0) hw0 hx0
  rw [List.nil_append] at hx
  have hs : A._m_size = 1025 := by rw [hx.size_eq, List.length_replicate]
  exact ⟨m, A, (vector.storage 1024 m).1,
    ⟨m.length + 1, A._m_overflow_arr, A._m_capacity, A._m_size⟩,
    { A with _m_overflow_arr := A.reserve_ptr }, hA,
    by rw [move_ctor_default]; exact move_ctor_big 1024 m A (by omega), hs, rfl⟩

/-- C10, as stated, fails: with the default inline capacity 1024 a vector `A` of exactly 1024
elements is heap-backed, yet move construction copies its elements into the array member of the
destination: the destination's active storage is not the heap block of `A`, and `A` keeps that
block as its active storage. -/
theorem move_heap_counterexample :
    ∃ m A m1 B A1, push_back_all (vector.default_ctor 1024 ([] : Mem Nat)).1
        (vector.default_ctor 1024 ([] : Mem Nat)).2 (List.replicate 1024 0) = some (m, A) ∧
      A._m_overflow_arr ≠ A.reserve_ptr ∧
      vector.move_ctor 1024 m A = some (m1, B, A1) ∧
      B._m_overflow_arr ≠ A._m_overflow_arr ∧ B._m_overflow_arr = B.reserve_ptr ∧
      A1._m_overflow_arr = A._m_overflow_arr ∧ A1._m_overflow_arr ≠ A1.reserve_ptr := by
  obtain ⟨m, A, m1, B, hA, _, ho, hmv, _, _, _, hinl, hne, _, _, _⟩ :=
    move_full_state (N := 1024) (by decide) ([] : Mem Nat) (List.replicate 1024 0)
      (List.length_replicate 1024 0)
  exact ⟨m, A, m1, B, A, hA, ho, by rw [move_ctor_default]; exact hmv,
    fun e => hne (by rw [e]), hinl, rfl, ho⟩

/-- C10, amended: with the default inline capacity 1024, where the user-provided move
constructor runs, for every source `A` with contents `xs` move construction is defined; when
`A.size() > 1024` the destination's active storage is exactly the former active storage of `A`,
no cell of any array is written (the memory is the one in which the destination's own storage
has just been created), and the active storage of `A` becomes its own array member; when
`A.size() ≤ 1024`, whether `A` is inline-backed or heap-backed, the elements are copied into the
destination's array member, which is not the storage of `A`, and `A` is left as it was. -/
theorem move_ctor_storage (m : Mem α) (A : vector) (xs : List α) (hx : Holds m A xs) :
    ∃ m1 B A1, vector.move_ctor 1024 m A = some (m1, B, A1) ∧
      (1024 < A.size → m1 = (vector.storage 1024 m).1 ∧
        B._m_overflow_arr = A._m_overflow_arr ∧
        A1._m_overflow_arr = A1.reserve_ptr ∧ A1._m_reserve_arr = A._m_reserve_arr) ∧
      (A.size ≤ 1024 → B._m_overflow_arr = B.reserve_ptr ∧
        B._m_overflow_arr.base ≠ A._m_overflow_arr.base ∧ A1 = A ∧
        (∀ i, i < xs.length → B._at m1 i = xs[i]?) ∧
        ∀ i, i < xs.length → A._at m1 i = xs[i]?) := by
  obtain ⟨blk, hb, _⟩ := hx.cells
  have hbase : A._m_overflow_arr.base ≠ m.length + 1 := by
    have := (block_pos_le hb).2; omega
  rcases Nat.lt_or_ge 1024 A._m_size with hbig | hsmall
  · exact ⟨(vector.storage 1024 m).1,
      ⟨m.length + 1, A._m_overflow_arr, A._m_capacity, A._m_size⟩,
      { A with _m_overflow_arr := A.reserve_ptr },
      by rw [move_ctor_default]; exact move_ctor_big 1024 m A hbig,
      fun _ => ⟨rfl, rfl, rfl, rfl⟩, fun h => absurd h (by show ¬ A._m_size ≤ 1024; omega)⟩
  · obtain ⟨m1, B, A1, h, hB, hres, _, _, hfr, _, _, hsm⟩ := move_ctor_holds (N := 1024) hx
    obtain ⟨hbo, hA1⟩ := hsm hsmall
    refine ⟨m1, B, A1, by rw [move_ctor_default]; exact h,
      fun h => absurd h (by show ¬ 1024 < A._m_size; omega),
      fun _ => ⟨hbo, ?_, hA1, fun i hi => hB.read i hi, fun i hi => ?_⟩⟩
    · rw [hbo]
      show B._m_reserve_arr ≠ _
      rw [hres]; exact Ne.symm hbase
    · exact (hx.frame (hfr _ hbase)).read i hi

/-- Witness of the amended C10: a heap-backed `A` of 1025 elements, capacity 2048. -/
theorem move_ctor_storage_witness :
    ∃ m1 B A1, vector.move_ctor 1024
        [some (List.replicate 1024 (some 0)),
         some (List.replicate 1025 (some 0) ++ List.replicate 1023 none)] ⟨1, ⟨2, 0⟩, 2048, 1025⟩
          = some (m1, B, A1) ∧
      (1024 < vector.size ⟨1, ⟨2, 0⟩, 2048, 1025⟩ →
        m1 = (vector.storage 1024 [some (List.replicate 1024 (some 0)),
         some (List.replicate 1025 (some 0) ++ List.replicate 1023 none)]).1 ∧
        B._m_overflow_arr = (⟨2, 0⟩ : Ptr) ∧
        A1._m_overflow_arr = A1.reserve_ptr ∧ A1._m_reserve_arr = 1) ∧
      (vector.size ⟨1, ⟨2, 0⟩, 2048, 1025⟩ ≤ 1024 → B._m_overflow_arr = B.reserve_ptr ∧
        B._m_overflow_arr.base ≠ 2 ∧ A1 = ⟨1, ⟨2, 0⟩, 2048, 1025⟩ ∧
        (∀ i, i < (List.replicate 1025 0).length → B._at m1 i = (List.replicate 1025 0)[i]?) ∧
        ∀ i, i < (List.replicate 1025 0).length →
          vector._at m1 ⟨1, ⟨2, 0⟩, 2048, 1025⟩ i = (List.replicate 1025 0)[i]?) :=
  move_ctor_storage
    [some (List.replicate 1024 (some 0)),
         some (List.replicate 1025 (some 0) ++ List.replicate 1023 none)] ⟨1, ⟨2, 0⟩, 2048, 1025⟩ (List.replicate 1025 0)
    ⟨(List.length_replicate 1025 0).symm, rfl, ⟨_, rfl, by
      rw [List.length_replicate, List.map_replicate]
      exact List.take_left' (List.length_replicate 1025 (some 0))⟩⟩


/-- C11, the code at a reachable vector: with the default inline capacity 1024, the copy `B` of
a vector of exactly 1024 elements satisfies `size() < capacity()` (1024 < 2048), but its active
storage is its array member, whose 1024 cells all hold elements: no free trailing slot remains,
the cell at index 1024 does not exist. -/
theorem no_free_slot_after_copy :
    ∃ m A m1 B, push_back_all (vector.default_ctor 1024 ([] : Mem Nat)).1
        (vector.default_ctor 1024 ([] : Mem Nat)).2 (List.replicate 1024 0) = some (m, A) ∧
      vector.copy_ctor 1024 m A = some (m1, B) ∧ B.size = 1024 ∧ B.capacity = 2048 ∧
      B.size < B.capacity ∧ B._m_overflow_arr = B.reserve_ptr ∧
      block m1 B._m_overflow_arr.base = some (List.replicate 1024 (some 0)) ∧
      B._at m1 1024 = none := by
  obtain ⟨m, A, m1, B, hA, _, _, hcp, hB, _, hs, hc, hinl, _, hb, _, _⟩ :=
    copy_full_state (N := 1024) (by decide) ([] : Mem Nat) (List.replicate 1024 0)
      (List.length_replicate 1024 0)
  rw [List.map_replicate] at hb
  refine ⟨m, A, m1, B, hA, by rw [copy_ctor_default]; exact hcp, hs, hc, ?_, hinl, hb,
    read_past_end hB.off_zero hb (by rw [List.length_replicate])⟩
  show B._m_size < B._m_capacity
  omega

/-- C12, the code at reachable vectors of the default inline capacity 1024.  The copy `B` of a
vector `A` of exactly 1024 elements has `capacity() == 2048` while its active storage is its
array member of 1024 cells: index 1024, below the capacity, is not addressable and `push_back`
writes there.  The move destination of `A` is the same.  The moved-from source of 1025 elements
keeps capacity 2048 over its array member of 1024 cells. -/
theorem capacity_exceeds_storage :
    (∃ m A m1 B, push_back_all (vector.default_ctor 1024 ([] : Mem Nat)).1
        (vector.default_ctor 1024 ([] : Mem Nat)).2 (List.replicate 1024 0) = some (m, A) ∧
      vector.copy_ctor 1024 m A = some (m1, B) ∧ B.capacity = 2048 ∧
      B._m_overflow_arr = B.reserve_ptr ∧
      (block m1 B._m_overflow_arr.base).map List.length = some 1024 ∧
      B.assign_at m1 1024 5 = none ∧ B.push_back m1 5 = none) ∧
    (∃ m A m1 B A1, push_back_all (vector.default_ctor 1024 ([] : Mem Nat)).1
        (vector.default_ctor 1024 ([] : Mem Nat)).2 (List.replicate 1024 0) = some (m, A) ∧
      vector.move_ctor 1024 m A = some (m1, B, A1) ∧ B.capacity = 2048 ∧
      B._m_overflow_arr = B.reserve_ptr ∧
      (block m1 B._m_overflow_arr.base).map List.length = some 1024 ∧
      B.assign_at m1 1024 5 = none ∧ B.push_back m1 5 = none) ∧
    ∃ m A m1 B A1, push_back_all (vector.default_ctor 1024 ([] : Mem Nat)).1
        (vector.default_ctor 1024 ([] : Mem Nat)).2 (List.replicate 1025 0) = some (m, A) ∧
      vector.move_ctor 1024 m A = some (m1, B, A1) ∧ A1.size = 1025 ∧ A1.capacity = 2048 ∧
      A1._m_overflow_arr = A1.reserve_ptr ∧
      (block m1 A1._m_overflow_arr.base).map List.length = some 1024 := by
  refine ⟨?_, ?_, ?_⟩
  · obtain ⟨m, A, m1, B, hA, _, _, hcp, hB, _, _, hc, hinl, _, hb, hpb, _⟩ :=
      copy_full_state (N := 1024) (by decide) ([] : Mem Nat) (List.replicate 1024 0)
        (List.length_replicate 1024 0)
    have hl : ((List.replicate 1024 0).map some).length ≤ 1024 := by
      rw [List.length_map, List.length_replicate]
    exact ⟨m, A, m1, B, hA, by rw [copy_ctor_default]; exact hcp, hc, hinl,
      by rw [hb, Option.map_some', List.length_map, List.length_replicate],
      write_past_end 5 hB.off_zero hb hl, hpb 5⟩
  · obtain ⟨m, A, m1, B, hA, _, _, hmv, hB, _, hc, hinl, _, hb, hpb, _⟩ :=
      move_full_state (N := 1024) (by decide) ([] : Mem Nat) (List.replicate 1024 0)
        (List.length_replicate 1024 0)
    have hl : ((List.replicate 1024 0).map some).length ≤ 1024 := by
      rw [List.length_map, List.length_replicate]
    exact ⟨m, A, m1, B, A, hA, by rw [move_ctor_default]; exact hmv, hc, hinl,
      by rw [hb, Option.map_some', List.length_map, List.length_replicate],
      write_past_end 5 hB.off_zero hb hl, hpb 5⟩
  · obtain ⟨m, A, m1, B, A1, hA, hmv, hs, hc, hinl, r, hr, hrl⟩ :=
      moved_from_state (N := 1024) (by decide) ([] : Mem Nat) (List.replicate 1025 0)
        (List.length_replicate 1025 0)
    exact ⟨m, A, m1, B, A1, hA, by rw [move_ctor_default]; exact hmv, hs, hc, hinl,
      by rw [hr, Option.map_some', hrl]⟩

/-- C13: for every vector `v` with contents `xs` (`N ≥ 1`, fuel above the size),
`v.reverse().reverse()` is defined, has the size of `v`, and has at every index below it the
element `v` has there. -/
theorem reverse_reverse (N : Nat) (hN : 1 ≤ N) (fuel : Nat) (m : Mem α) (v : vector)
    (xs : List α) (hx : Holds m v xs) (hf : xs.length < fuel) :
    ∃ m1 r m2 r2, v.reverse N fuel m = some (m1, r) ∧ r.reverse N fuel m1 = some (m2, r2) ∧
      r2.size = v.size ∧
      ∀ i, i < v.size → r2._at m2 i = v._at m i ∧ r2._at m2 i = xs[i]? := by
  obtain ⟨m1, r, h1, hr, _, _⟩ := reverse_spec hN hf hx
  obtain ⟨m2, r2, h2, hr2, _, _⟩ := reverse_spec hN (by simpa using hf) hr
  rw [List.reverse_reverse] at hr2
  have hsz : v.size = xs.length := hx.size_eq
  refine ⟨m1, r, m2, r2, h1, h2, by rw [hsz]; exact hr2.size_eq, fun i hi => ?_⟩
  rw [hsz] at hi
  exact ⟨by rw [hr2.read i hi, hx.read i hi], hr2.read i hi⟩

/-- Witness of C13: the heap-backed vector `[1, 2, 3, 4]` of inline capacity 4. -/
theorem reverse_reverse_witness :
    ∃ m1 r m2 r2, vector.reverse 4 5
        [some [some 1, some 2, some 3, none],
         some [some 1, some 2, some 3, some 4, none, none, none, none]] ⟨1, ⟨2, 0⟩, 8, 4⟩
          = some (m1, r) ∧ r.reverse 4 5 m1 = some (m2, r2) ∧
      r2.size = vector.size ⟨1, ⟨2, 0⟩, 8, 4⟩ ∧
      ∀ i, i < vector.size ⟨1, ⟨2, 0⟩, 8, 4⟩ →
        r2._at m2 i = vector._at [some [some 1, some 2, some 3, none],
          some [some 1, some 2, some 3, some 4, none, none, none, none]] ⟨1, ⟨2, 0⟩, 8, 4⟩ i ∧
        r2._at m2 i = [1, 2, 3, 4][i]? :=
  reverse_reverse 4 (by decide) 5
    [some [some 1, some 2, some 3, none],
     some [some 1, some 2, some 3, some 4, none, none, none, none]] ⟨1, ⟨2, 0⟩, 8, 4⟩
    [1, 2, 3, 4] ⟨rfl, rfl, ⟨_, rfl, rfl⟩⟩ (by decide)


/-- C14: for every vector `v` with contents `xs`: `end()` is the position `begin() + size()`;
dereferencing `begin() + i` yields `at(i)`, which for `i < size()` is the `i`-th element, and
`i` increments from `begin()` reach `begin() + i`; `rbegin() == end() - 1` and
`rend() == begin() - 1`; decrementing from `rbegin()` reaches `rend()` after `size()` steps and
not before. -/
theorem iterator_bounds (m : Mem α) (v : vector) (xs : List α) (hx : Holds m v xs) :
    v.end_.eq (v.begin.plus v.size) = true ∧
    (∀ i, (v.begin.plus i).deref m = v._at m i) ∧
    (∀ i, i < v.size → (v.begin.plus i).deref m = xs[i]?) ∧
    (∀ i, Nat.iterate random_access_iter.pre_inc i v.begin = v.begin.plus i) ∧
    Nat.iterate random_access_iter.pre_inc v.size v.begin = v.end_ ∧
    v.rbegin.eq (v.end_.minus 1) = true ∧ v.rend.eq (v.begin.minus 1) = true ∧
    Nat.iterate random_access_iter.pre_dec v.size v.rbegin = v.rend ∧
    ∀ k, k < v.size → (Nat.iterate random_access_iter.pre_dec k v.rbegin).ne v.rend = true := by
  have hsz : v.size = xs.length := hx.size_eq
  refine ⟨by simp [random_access_iter.eq, random_access_iter._equal, vector.end_, vector.begin,
      random_access_iter.plus, random_access_iter.from_ptr, random_access_iter._ctor_item,
      vector.size, vector._size], fun i => rfl, fun i hi => ?_, fun i => ?_, ?_,
    by simp [random_access_iter.eq, random_access_iter._equal, vector.rbegin],
    by simp [random_access_iter.eq, random_access_iter._equal, vector.rend], ?_, fun k hk => ?_⟩
  · exact hx.read i (by rw [← hsz]; exact hi)
  · rw [iterate_pre_inc]; rfl
  · rw [iterate_pre_inc]; rfl
  · rw [iterate_pre_dec]
    simp only [vector.rbegin, vector.rend, vector.end_, vector.begin, random_access_iter.minus,
      random_access_iter.from_ptr, random_access_iter._ctor_item, Ptr.add, Ptr.sub, vector.size,
      vector._size]
    congr 2
    ring
  · rw [iterate_pre_dec]
    have hk1 : (k : Int) < (v._m_size : Int) := by exact_mod_cast hk
    have : ¬ (v._m_overflow_arr.off + (v._m_size : Int) - 1 - (k : Int) =
        v._m_overflow_arr.off - 1) := by omega
    simp [random_access_iter.ne, random_access_iter._equal, vector.rbegin, vector.rend,
      vector.end_, vector.begin, random_access_iter.minus, random_access_iter.from_ptr,
      random_access_iter._ctor_item, Ptr.add, Ptr.sub, this]

/-- Witness of C14: the heap-backed vector `[1, 2, 3, 4]` of inline capacity 4. -/
theorem iterator_bounds_witness :
    (vector.end_ ⟨1, ⟨2, 0⟩, 8, 4⟩).eq
      ((vector.begin ⟨1, ⟨2, 0⟩, 8, 4⟩).plus (vector.size ⟨1, ⟨2, 0⟩, 8, 4⟩)) = true ∧
    (∀ i, ((vector.begin ⟨1, ⟨2, 0⟩, 8, 4⟩).plus i).deref
        [some [some 1, some 2, some 3, none],
         some [some 1, some 2, some 3, some 4, none, none, none, none]] =
      vector._at [some [some 1, some 2, some 3, none],
         some [some 1, some 2, some 3, some 4, none, none, none, none]] ⟨1, ⟨2, 0⟩, 8, 4⟩ i) ∧
    (∀ i, i < vector.size ⟨1, ⟨2, 0⟩, 8, 4⟩ →
      ((vector.begin ⟨1, ⟨2, 0⟩, 8, 4⟩).plus i).deref
        [some [some 1, some 2, some 3, none],
         some [some 1, some 2, some 3, some 4, none, none, none, none]] = [1, 2, 3, 4][i]?) ∧
    (∀ i, Nat.iterate random_access_iter.pre_inc i (vector.begin ⟨1, ⟨2, 0⟩, 8, 4⟩) =
      (vector.begin ⟨1, ⟨2, 0⟩, 8, 4⟩).plus i) ∧
    Nat.iterate random_access_iter.pre_inc (vector.size ⟨1, ⟨2, 0⟩, 8, 4⟩)
      (vector.begin ⟨1, ⟨2, 0⟩, 8, 4⟩) = vector.end_ ⟨1, ⟨2, 0⟩, 8, 4⟩ ∧
    (vector.rbegin ⟨1, ⟨2, 0⟩, 8, 4⟩).eq ((vector.end_ ⟨1, ⟨2, 0⟩, 8, 4⟩).minus 1) = true ∧
    (vector.rend ⟨1, ⟨2, 0⟩, 8, 4⟩).eq ((vector.begin ⟨1, ⟨2, 0⟩, 8, 4⟩).minus 1) = true ∧
    Nat.iterate random_access_iter.pre_dec (vector.size ⟨1, ⟨2, 0⟩, 8, 4⟩)
      (vector.rbegin ⟨1, ⟨2, 0⟩, 8, 4⟩) = vector.rend ⟨1, ⟨2, 0⟩, 8, 4⟩ ∧
    ∀ k, k < vector.size ⟨1, ⟨2, 0⟩, 8, 4⟩ →
      (Nat.iterate random_access_iter.pre_dec k (vector.rbegin ⟨1, ⟨2, 0⟩, 8, 4⟩)).ne
        (vector.rend ⟨1, ⟨2, 0⟩, 8, 4⟩) = true :=
  iterator_bounds
    [some [some 1, some 2, some 3, none],
     some [some 1, some 2, some 3, some 4, none, none, none, none]] ⟨1, ⟨2, 0⟩, 8, 4⟩
    [1, 2, 3, 4] ⟨rfl, rfl, ⟨_, rfl, rfl⟩⟩

/-- C15: for every iterator `it` and every `n`: `it + n` is an iterator at the position of `it`
plus `n` in the same run (the member assigns nothing to the receiver); `it += n` moves `it` to
that same position; and `it[n]` reads the same element as `*(it + n)` and as `*it` after
`it += n`. -/
theorem iterator_offset (m : Mem α) (it : random_access_iter) (n : Nat) :
    (it.plus n)._m_ptr.base = it._m_ptr.base ∧
    (it.plus n)._m_ptr.off = it._m_ptr.off + (n : Int) ∧
    it.plus_assign n = it.plus n ∧
    it.subscript m n = (it.plus n).deref m ∧
    it.subscript m n = (it.plus_assign n).deref m :=
  ⟨rfl, rfl, rfl, rfl, rfl⟩

/-- C16: for two iterators `a`, `b` over the same run, `==`, `<` and `>` are the order of the
positions; `!=`, `<=` and `>=` are derived from them as written; and exactly one of `a < b`,
`a == b`, `a > b` holds. -/
theorem iterator_compare (a b : random_access_iter) (h : a._m_ptr.base = b._m_ptr.base) :
    (a.eq b = true ↔ a._m_ptr.off = b._m_ptr.off) ∧
    (a.lt b = true ↔ a._m_ptr.off < b._m_ptr.off) ∧
    (a.gt b = true ↔ a._m_ptr.off > b._m_ptr.off) ∧
    a.ne b = !a.eq b ∧ a.le b = (a.lt b || a.eq b) ∧ a.ge b = (a.gt b || a.eq b) ∧
    ((a.lt b = true ∧ a.eq b = false ∧ a.gt b = false) ∨
     (a.lt b = false ∧ a.eq b = true ∧ a.gt b = false) ∨
     (a.lt b = false ∧ a.eq b = false ∧ a.gt b = true)) := by
  obtain ⟨⟨ab, ao⟩⟩ := a
  obtain ⟨⟨bb, bo⟩⟩ := b
  simp only at h
  subst h
  have heq : (random_access_iter.mk ⟨ab, ao⟩).eq ⟨⟨ab, bo⟩⟩ = decide (ao = bo) := by
    simp [random_access_iter.eq, random_access_iter._equal]
  have hlt : (random_access_iter.mk ⟨ab, ao⟩).lt ⟨⟨ab, bo⟩⟩ = decide (ao < bo) := by
    simp [random_access_iter.lt, random_access_iter._less_than, Ptr.lt]
  have hgt : (random_access_iter.mk ⟨ab, ao⟩).gt ⟨⟨ab, bo⟩⟩ = decide (bo < ao) := by
    simp [random_access_iter.gt, random_access_iter._greater_than, Ptr.lt]
  refine ⟨by simp [heq], by simp [hlt], by simp [hgt], rfl, rfl, rfl, ?_⟩
  rw [heq, hlt, hgt]
  rcases lt_trichotomy ao bo with h1 | h1 | h1
  · left
    simp [h1, ne_of_lt h1, not_lt.2 (le_of_lt h1)]
  · right; left
    simp [h1]
  · right; right
    simp [h1, ne_of_gt h1, not_lt.2 (le_of_lt h1)]

/-- Witness of C16: two positions of one run. -/
theorem iterator_compare_witness :
    ((random_access_iter.mk ⟨2, 1⟩).eq ⟨⟨2, 3⟩⟩ = true ↔ (1 : Int) = 3) ∧
    ((random_access_iter.mk ⟨2, 1⟩).lt ⟨⟨2, 3⟩⟩ = true ↔ (1 : Int) < 3) ∧
    ((random_access_iter.mk ⟨2, 1⟩).gt ⟨⟨2, 3⟩⟩ = true ↔ (1 : Int) > 3) ∧
    (random_access_iter.mk ⟨2, 1⟩).ne ⟨⟨2, 3⟩⟩ = !(random_access_iter.mk ⟨2, 1⟩).eq ⟨⟨2, 3⟩⟩ ∧
    (random_access_iter.mk ⟨2, 1⟩).le ⟨⟨2, 3⟩⟩ =
      ((random_access_iter.mk ⟨2, 1⟩).lt ⟨⟨2, 3⟩⟩ || (random_access_iter.mk ⟨2, 1⟩).eq ⟨⟨2, 3⟩⟩) ∧
    (random_access_iter.mk ⟨2, 1⟩).ge ⟨⟨2, 3⟩⟩ =
      ((random_access_iter.mk ⟨2, 1⟩).gt ⟨⟨2, 3⟩⟩ || (random_access_iter.mk ⟨2, 1⟩).eq ⟨⟨2, 3⟩⟩) ∧
    (((random_access_iter.mk ⟨2, 1⟩).lt ⟨⟨2, 3⟩⟩ = true ∧
        (random_access_iter.mk ⟨2, 1⟩).eq ⟨⟨2, 3⟩⟩ = false ∧
        (random_access_iter.mk ⟨2, 1⟩).gt ⟨⟨2, 3⟩⟩ = false) ∨
     ((random_access_iter.mk ⟨2, 1⟩).lt ⟨⟨2, 3⟩⟩ = false ∧
        (random_access_iter.mk ⟨2, 1⟩).eq ⟨⟨2, 3⟩⟩ = true ∧
        (random_access_iter.mk ⟨2, 1⟩).gt ⟨⟨2, 3⟩⟩ = false) ∨
     ((random_access_iter.mk ⟨2, 1⟩).lt ⟨⟨2, 3⟩⟩ = false ∧
        (random_access_iter.mk ⟨2, 1⟩).eq ⟨⟨2, 3⟩⟩ = false ∧
        (random_access_iter.mk ⟨2, 1⟩).gt ⟨⟨2, 3⟩⟩ = true)) :=
  iterator_compare ⟨⟨2, 1⟩⟩ ⟨⟨2, 3⟩⟩ rfl


/-- C17, as stated, fails: with inline capacity 2 the vector `[10, 20]` built by two
`push_back` calls already has capacity 4 before `push_front(5)`, and the prepend creates no
array object: the capacity is 4 before and after it. -/
theorem prepend_scenario_counterexample :
    ((push_back_all (vector.default_ctor 2 ([] : Mem Nat)).1
        (vector.default_ctor 2 ([] : Mem Nat)).2 [10, 20]).bind fun s =>
      (s.2.push_front s.1 5).map fun t =>
        (s.2.capacity, t.2.capacity, decide (t.1.length = s.1.length)))
      = some (4, 4, true) := by
  decide

/-- C17, amended: with inline capacity 2, `push_back(10)` leaves the vector inline with
capacity 2; `push_back(20)` grows it to capacity 4 on a heap block; `push_front(5)` on the
resulting `[10, 20]` does not grow (capacity 4 before and after, same active storage) and the
contents are `[5, 10, 20]`. -/
theorem prepend_scenario :
    ((push_back_all (vector.default_ctor 2 ([] : Mem Nat)).1
        (vector.default_ctor 2 ([] : Mem Nat)).2 [10]).map fun s =>
        (s.2.size, s.2.capacity, decide (s.2._m_overflow_arr = s.2.reserve_ptr)))
      = some (1, 2, true) ∧
    ((push_back_all (vector.default_ctor 2 ([] : Mem Nat)).1
        (vector.default_ctor 2 ([] : Mem Nat)).2 [10, 20]).map fun s =>
        (s.2.size, s.2.capacity, decide (s.2._m_overflow_arr = s.2.reserve_ptr),
         (List.range 2).map (s.2._at s.1)))
      = some (2, 4, false, [some 10, some 20]) ∧
    ((push_back_all (vector.default_ctor 2 ([] : Mem Nat)).1
        (vector.default_ctor 2 ([] : Mem Nat)).2 [10, 20]).bind fun s =>
      (s.2.push_front s.1 5).map fun t =>
        (t.2.size, t.2.capacity, decide (t.2._m_overflow_arr = s.2._m_overflow_arr),
         (List.range 3).map (t.2._at t.1)))
      = some (3, 4, true, [some 5, some 10, some 20]) := by
  refine ⟨?_, ?_, ?_⟩ <;> decide

/-- Under the storage invariant: for a vector with contents `xs`, size `s` and capacity `c`,
`push_back` and `push_front` are defined and keep the old elements in order;
when `s + 1 == c` the capacity afterwards is `2c` and the active storage is an array object of
`2c` cells that did not exist before and is not the array member; otherwise the capacity and
the active storage are the same as before and no array object is created. -/
theorem growth_rule (N : Nat) (m : Mem α) (v : vector) (xs : List α) (x : α)
    (hw : WF N m v) (hx : Holds m v xs) :
    (∃ m1 v1, v.push_back m x = some (m1, v1) ∧ v1.size = v.size + 1 ∧
      (∀ i, i < xs.length → v1._at m1 i = xs[i]?) ∧ v1._at m1 xs.length = some x ∧
      (v.size + 1 = v.capacity → v1.capacity = 2 * v.capacity ∧
        v1._m_overflow_arr ≠ v1.reserve_ptr ∧ block m v1._m_overflow_arr.base = none ∧
        m1.length = m.length + 1 ∧
        ∃ blk, block m1 v1._m_overflow_arr.base = some blk ∧ blk.length = 2 * v.capacity) ∧
      (v.size + 1 ≠ v.capacity → v1.capacity = v.capacity ∧
        v1._m_overflow_arr = v._m_overflow_arr ∧ m1.length = m.length)) ∧
    (∃ m1 v1, v.push_front m x = some (m1, v1) ∧ v1.size = v.size + 1 ∧
      (∀ i, i < xs.length → v1._at m1 (i + 1) = xs[i]?) ∧ v1._at m1 0 = some x ∧
      (v.size + 1 = v.capacity → v1.capacity = 2 * v.capacity ∧
        v1._m_overflow_arr ≠ v1.reserve_ptr ∧ block m v1._m_overflow_arr.base = none ∧
        m1.length = m.length + 1 ∧
        ∃ blk, block m1 v1._m_overflow_arr.base = some blk ∧ blk.length = 2 * v.capacity) ∧
      (v.size + 1 ≠ v.capacity → v1.capacity = v.capacity ∧
        v1._m_overflow_arr = v._m_overflow_arr ∧ m1.length = m.length)) := by
  constructor
  · obtain ⟨m1, v1, h, hw1, hx1⟩ := push_back_spec hw hx x
    obtain ⟨_, hs⟩ := push_back_step h
    obtain ⟨blk, hb, hbl⟩ := hw1.active_live
    refine ⟨m1, v1, h, hs, fun i hi => ?_, ?_, fun hg => ?_, fun hg => ?_⟩
    · rw [hx1.read i (by simp; omega), List.getElem?_append_left hi]
    · rw [hx1.read xs.length (by simp)]
      simp
    · obtain ⟨hl, ho, hc, hr⟩ := push_back_grow hg h
      refine ⟨by show v1._m_capacity = _; rw [hc]; exact Nat.mul_comm _ _,
        hw.fresh_ne_reserve ho hr, by rw [ho]; exact block_fresh m, hl, blk, hb, ?_⟩
      rw [hbl, hc]; exact Nat.mul_comm _ _
    · obtain ⟨hl, ho, hc, _⟩ := push_back_still hg h
      exact ⟨hc, ho, hl⟩
  · obtain ⟨m1, v1, h, hw1, hx1⟩ := push_front_spec hw hx x
    obtain ⟨_, hs⟩ := push_front_step h
    obtain ⟨blk, hb, hbl⟩ := hw1.active_live
    refine ⟨m1, v1, h, hs, fun i hi => ?_, ?_, fun hg => ?_, fun hg => ?_⟩
    · rw [hx1.read (i + 1) (by simp; omega)]
      simp
    · rw [hx1.read 0 (by simp)]
      simp
    · obtain ⟨hl, ho, hc, hr⟩ := push_front_grow hg h
      refine ⟨by show v1._m_capacity = _; rw [hc]; exact Nat.mul_comm _ _,
        hw.fresh_ne_reserve ho hr, by rw [ho]; exact block_fresh m, hl, blk, hb, ?_⟩
      rw [hbl, hc]; exact Nat.mul_comm _ _
    · obtain ⟨hl, ho, hc, _⟩ := push_front_still hg h
      exact ⟨hc, ho, hl⟩

/-- C18, the code at a vector state whose capacity exceeds its storage: with the default inline
capacity 1024, the copy `B` of a vector of exactly 1024 elements has `s = 1024` and `c = 2048`,
so `s + 1 != c` and neither push grows; `push_back` then writes cell 1024 and `push_front`
shifts the elements into cells 1..1024 of the array member of 1024 cells: both are undefined,
instead of leaving capacity and storage as they were. -/
theorem push_after_copy_undefined :
    ∃ m A m1 B, push_back_all (vector.default_ctor 1024 ([] : Mem Nat)).1
        (vector.default_ctor 1024 ([] : Mem Nat)).2 (List.replicate 1024 0) = some (m, A) ∧
      vector.copy_ctor 1024 m A = some (m1, B) ∧ B.size = 1024 ∧ B.capacity = 2048 ∧
      B.size + 1 ≠ B.capacity ∧
      (block m1 B._m_overflow_arr.base).map List.length = some 1024 ∧
      B.push_back m1 5 = none ∧ B.push_front m1 5 = none := by
  obtain ⟨m, A, m1, B, hA, _, _, hcp, _, _, hs, hc, _, _, hb, hpb, hpf⟩ :=
    copy_full_state (N := 1024) (by decide) ([] : Mem Nat) (List.replicate 1024 0)
      (List.length_replicate 1024 0)
  refine ⟨m, A, m1, B, hA, by rw [copy_ctor_default]; exact hcp, hs, hc, ?_,
    by rw [hb, Option.map_some', List.length_map, List.length_replicate], hpb 5, hpf 5⟩
  show B._m_size + 1 ≠ B._m_capacity
  omega


/-- C19: for every inline capacity `N ≥ 1` and every run of `n` `push_back`/`push_front` calls
on a default-constructed vector, the run is defined, `size() == n`, and
`capacity() == N * 2^k` for the least `k` with `n < N * 2^k`; the active storage is the array
member exactly when `n < N`, and `capacity() ≤ max(N, 2n)`. -/
theorem capacity_power_of_two (N : Nat) (hN : 1 ≤ N) (m : Mem α) (ops : List (Op α))
    (hp : ∀ o ∈ ops, o.is_push = true) :
    ∃ m1 v k, run (vector.default_ctor N m).1 (vector.default_ctor N m).2 ops = some (m1, v) ∧
      v.size = ops.length ∧ v.capacity = N * 2 ^ k ∧ ops.length < N * 2 ^ k ∧
      (∀ j, ops.length < N * 2 ^ j → k ≤ j) ∧
      (v._m_overflow_arr = v.reserve_ptr ↔ ops.length < N) ∧
      v.capacity ≤ max N (2 * ops.length) := by
  obtain ⟨hw0, hx0⟩ := default_ctor_spec hN m
  have hd0 : Doubling N (vector.default_ctor N m).2 := Or.inl ⟨rfl, rfl⟩
  obtain ⟨m1, v, zs, hrun, hw, _, hd, hs⟩ := run_push_doubling ops hp hw0 hx0 hd0
  have hsz : v._m_size = ops.length := by
    rw [hs]
    show 0 + ops.length = ops.length
    omega
  have hroom := hw.room
  rcases hd with ⟨hcap, ho⟩ | ⟨j, hcap, hle, ho⟩
  · refine ⟨m1, v, 0, hrun, hsz, by show v._m_capacity = _; rw [hcap]; simp, ?_,
      fun j _ => Nat.zero_le j, ⟨fun _ => by omega, fun _ => ho⟩, ?_⟩
    · simp only [pow_zero, mul_one]; omega
    · show v._m_capacity ≤ _
      rw [hcap]; exact le_max_left _ _
  · have hpow : N * 2 ^ (j + 1) = 2 * (N * 2 ^ j) := by ring
    have hone : N ≤ N * 2 ^ j := Nat.le_mul_of_pos_right N (Nat.pow_pos (by decide))
    refine ⟨m1, v, j + 1, hrun, hsz, hcap, by rw [← hcap, ← hsz]; exact hroom, fun i hi => ?_,
      ⟨fun e => absurd e ho, fun hlt => by omega⟩, ?_⟩
    · by_contra hcon
      have hij : i ≤ j := by omega
      have : N * 2 ^ i ≤ N * 2 ^ j :=
        Nat.mul_le_mul_left N (Nat.pow_le_pow_right (by decide) hij)
      omega
    · show v._m_capacity ≤ _
      rw [hcap, hpow]
      exact le_trans (by omega) (le_max_right _ _)

/-- Witness of C19: nine pushes on a vector of inline capacity 4. -/
theorem capacity_power_of_two_witness :
    1 ≤ 4 ∧ ∃ m1 v k, run (vector.default_ctor 4 ([] : Mem Nat)).1
        (vector.default_ctor 4 ([] : Mem Nat)).2
        [Op.push_back 1, Op.push_front 2, Op.push_back 3, Op.push_back 4, Op.push_front 5,
         Op.push_back 6, Op.push_back 7, Op.push_front 8, Op.push_back 9] = some (m1, v) ∧
      v.size = [Op.push_back 1, Op.push_front 2, Op.push_back 3, Op.push_back 4,
         Op.push_front 5, Op.push_back 6, Op.push_back 7, Op.push_front 8,
         Op.push_back 9].length ∧ v.capacity = 4 * 2 ^ k ∧
      [Op.push_back 1, Op.push_front 2, Op.push_back 3, Op.push_back 4, Op.push_front 5,
         Op.push_back 6, Op.push_back 7, Op.push_front 8, Op.push_back 9].length < 4 * 2 ^ k ∧
      (∀ j, [Op.push_back 1, Op.push_front 2, Op.push_back 3, Op.push_back 4,
         Op.push_front 5, Op.push_back 6, Op.push_back 7, Op.push_front 8,
         Op.push_back 9].length < 4 * 2 ^ j → k ≤ j) ∧
      (v._m_overflow_arr = v.reserve_ptr ↔
        [Op.push_back 1, Op.push_front 2, Op.push_back 3, Op.push_back 4, Op.push_front 5,
         Op.push_back 6, Op.push_back 7, Op.push_front 8, Op.push_back 9].length < 4) ∧
      v.capacity ≤ max 4 (2 * [Op.push_back 1, Op.push_front 2, Op.push_back 3,
         Op.push_back 4, Op.push_front 5, Op.push_back 6, Op.push_back 7, Op.push_front 8,
         Op.push_back 9].length) :=
  ⟨by decide, capacity_power_of_two 4 (by decide) []
    [Op.push_back 1, Op.push_front 2, Op.push_back 3, Op.push_back 4, Op.push_front 5,
     Op.push_back 6, Op.push_back 7, Op.push_front 8, Op.push_back 9] (by decide)⟩

/-- C20, the code at a vector of exactly 1024 elements (the reserve size of the vector that
`reverse()` returns): the reverse of `v` after `push_back(5)` is defined and has contents
`5, x_1023, .., x_0`, but `v.reverse()` comes back on its array member of 1024 cells with
capacity 2048, and both `push_front(5)` and `push_back(5)` on it leave that storage: they are
undefined, so no vector with equal contents results. -/
theorem reverse_then_push_undefined :
    ∃ m v, push_back_all (vector.default_ctor 1024 ([] : Mem Nat)).1
        (vector.default_ctor 1024 ([] : Mem Nat)).2 (List.replicate 1024 0) = some (m, v) ∧
      (∃ m1 v1 m2 r, v.push_back m 5 = some (m1, v1) ∧
        v1.reverse 1024 1026 m1 = some (m2, r) ∧ r.size = 1025 ∧
        ∀ i, i < 1025 → r._at m2 i = (5 :: List.replicate 1024 0)[i]?) ∧
      ∃ m3 r0, v.reverse 1024 1025 m = some (m3, r0) ∧ r0.size = 1024 ∧
        (∀ i, i < 1024 → r0._at m3 i = some 0) ∧ r0.capacity = 2048 ∧
        (block m3 r0._m_overflow_arr.base).map List.length = some 1024 ∧
        r0.push_front m3 5 = none ∧ r0.push_back m3 5 = none := by
  obtain ⟨m, v, hA, hw, hx, _, _, _⟩ :=
    full_push_state (N := 1024) (by decide) ([] : Mem Nat) (List.replicate 1024 0)
      (List.length_replicate 1024 0)
  refine ⟨m, v, hA, ?_, ?_⟩
  · obtain ⟨m1, v1, h1, _, hx1⟩ := push_back_spec hw hx 5
    obtain ⟨m2, r, h2, hr, _, _⟩ := reverse_spec (N := 1024) (by decide)
      (show (List.replicate 1024 0 ++ [5]).length < 1026 by
        rw [List.length_append, List.length_replicate]; decide) hx1
    have hrev : (List.replicate 1024 0 ++ [5]).reverse = 5 :: List.replicate 1024 0 := by
      rw [List.reverse_append, List.reverse_replicate]
      rfl
    rw [hrev] at hr
    exact ⟨m1, v1, m2, r, h1, h2,
      by show r._m_size = 1025; rw [hr.size_eq, List.length_cons, List.length_replicate],
      fun i hi => hr.read i (by rw [List.length_cons, List.length_replicate]; exact hi)⟩
  · obtain ⟨m3, r0, h3, hr, hs, hc, _, hb, hpf, hpb⟩ :=
      reverse_full (N := 1024) (by decide)
        (show (List.replicate 1024 0).length < 1025 by rw [List.length_replicate]; decide)
        hx (List.length_replicate 1024 0)
    rw [List.reverse_replicate] at hr
    exact ⟨m3, r0, h3, hs, fun i hi => read_replicate hr i hi, hc,
      by rw [hb, Option.map_some', List.length_map, List.length_reverse, List.length_replicate],
      hpf 5, hpb 5⟩

end SmallVector
